import Mathlib

/-!
# go-safe-open-with: allowlist validation and message framing

A shallow embedding of `cmd/go-safe-open-with/main.go` and `config/validation.go`.

* Go strings are modelled by `String`.  Every string that reaches the validator comes out of a
  JSON or YAML decoder and is therefore valid UTF-8, for which prefix, suffix, equality and
  splitting at the one-byte separator `" "` agree on bytes and on code points.
* Go byte slices are modelled by `List Nat` (one number below 256 per byte).
* Run-time panics are explicit outcomes of the functions that can raise them.
* Log output (`Trace`, `Error`) never influences a result and is left out.
-/

namespace SafeOpenWith

/-! ## Library functions used by the validator -/

/-- Go `strings.TrimPrefix`: `s` without the leading `cut` if it starts with it, else `s`. -/
def trimPrefix (s cut : String) : String :=
  if cut.data.isPrefixOf s.data then ⟨s.data.drop cut.data.length⟩ else s

/-- Go `strings.TrimSuffix`: `s` without the trailing `cut` if it ends with it, else `s`. -/
def trimSuffix (s cut : String) : String :=
  if cut.data.isSuffixOf s.data then ⟨s.data.take (s.data.length - cut.data.length)⟩ else s

/-- Splitting a character list at every occurrence of `sep`; the result is never empty. -/
def splitChars (sep : Char) : List Char → List (List Char)
  | [] => [[]]
  | c :: cs =>
    if c = sep then [] :: splitChars sep cs
    else
      match splitChars sep cs with
      | [] => [[c]]
      | tok :: toks => (c :: tok) :: toks

/-- Go `strings.Split(s, " ")`. -/
def splitSpace (s : String) : List String :=
  (splitChars ' ' s.data).map String.mk

/-- Go `slices.Contains`. -/
def slicesContains (values : List String) (v : String) : Bool :=
  values.any (fun x => x == v)

/-! ## Data model (`config/validation.go`, `main.go`) -/

/-- The `config.ValidationArg` struct; the field `Type` is named `ArgType` here. -/
structure ValidationArg where
  ArgType : String := ""
  Value : String := ""
  Values : List String := []
  InsertBefore : List String := []
  InsertAfter : List String := []
  TrimLeft : List String := []
  TrimRight : List String := []
  SplitSpace : Bool := false

/-- The `config.Validation` struct. -/
structure Validation where
  Command : String := ""
  Arguments : List ValidationArg := []

/-- The `config.Configuration` struct. -/
structure Configuration where
  Allowed : List Validation := []

/-- A value of Go type `any` as produced by `json.Unmarshal`. -/
inductive AnyValue where
  | nil
  | bool (b : Bool)
  | float64 (text : String)
  | str (s : String)
  | slice (elems : List AnyValue)
  | map (entries : List (String × AnyValue))

/-- The `IncomingMessage` struct. -/
structure IncomingMessage where
  Command : String := ""
  ExecCommand : AnyValue := AnyValue.nil
  ExecKill : Bool := false
  ExecArguments : List String := []

/-- The part of `net/url.URL` that `validateIncoming` looks at. -/
structure URL where
  Scheme : String
deriving DecidableEq

/-- The type of `net/url.Parse`: a URL, or an error. -/
abbrev UrlParser := String → Option URL

/-! ## `appendSplit` and `validateIncoming` -/

/-- The function `appendSplit`. -/
def appendSplit (arg : String) (splitOnSpace : Bool) : List String :=
  if splitOnSpace then splitSpace arg else [arg]

/-- The loop `for _, cut := range argument.TrimLeft { value = strings.TrimPrefix(value, cut) }`. -/
def trimLeftLoop (value : String) (cuts : List String) : String :=
  cuts.foldl trimPrefix value

/-- The loop `for _, cut := range argument.TrimRight { value = strings.TrimSuffix(value, cut) }`. -/
def trimRightLoop (value : String) (cuts : List String) : String :=
  cuts.foldl trimSuffix value

/-- The value the `switch` sees: both trim loops applied to the request's argument. -/
def trimmed (argument : ValidationArg) (value : String) : String :=
  trimRightLoop (trimLeftLoop value argument.TrimLeft) argument.TrimRight

/-- How the `switch argument.Type` statement is left. -/
inductive SwitchExit where
  /-- The case ran to its end: control reaches the three `append` statements. -/
  | fallOut
  /-- The statement `continue ALLOWED`: the rule is abandoned. -/
  | continueAllowed
  /-- The plain `continue` of the `default` case: it continues the innermost loop,
  which is the loop over `allowed.Arguments`. -/
  | continueInner
deriving DecidableEq

/-- The statement `switch argument.Type { ... }` of `validateIncoming`. -/
def typeSwitch (parse : UrlParser) (argument : ValidationArg) (value : String) : SwitchExit :=
  if argument.ArgType = "string" then
    if argument.Value.length = 0 ∨ value ≠ argument.Value then .continueAllowed else .fallOut
  else if argument.ArgType = "list" then
    if argument.Values.length = 0 ∨ ¬ slicesContains argument.Values value = true then
      .continueAllowed
    else .fallOut
  else if argument.ArgType = "url" then
    match parse value with
    | none => .continueAllowed
    | some url =>
      if url.Scheme ≠ "http" ∧ url.Scheme ≠ "https" then .continueAllowed else .fallOut
  else .continueInner

/-- How the loop over `allowed.Arguments` ends. -/
inductive InnerExit where
  /-- The loop ran over every argument; `res` is the slice built so far. -/
  | completed (res : List String)
  /-- A `continue ALLOWED` was executed. -/
  | continueAllowed
  /-- The expression `msg.ExecArguments[argIndex]` was out of range. -/
  | indexOutOfRange
deriving DecidableEq

/-- The loop `for argIndex, argument := range allowed.Arguments { ... }`, started at index
`argIndex` with the remaining arguments. -/
def argumentsLoop (parse : UrlParser) (execArguments : List String) :
    List ValidationArg → Nat → List String → InnerExit
  | [], _, res => .completed res
  | argument :: rest, argIndex, res =>
    match execArguments[argIndex]? with
    | none => .indexOutOfRange
    | some raw =>
      let value := trimmed argument raw
      match typeSwitch parse argument value with
      | .continueAllowed => .continueAllowed
      | .continueInner => argumentsLoop parse execArguments rest (argIndex + 1) res
      | .fallOut =>
        argumentsLoop parse execArguments rest (argIndex + 1)
          (res ++ argument.InsertBefore ++ appendSplit value argument.SplitSpace
            ++ argument.InsertAfter)

/-- What a call of `validateIncoming` does: it returns a slice or it panics. -/
inductive Outcome where
  | returned (res : List String)
  | panicked
deriving DecidableEq

/-- The loop `ALLOWED: for allowedIdx, allowed := range configuration.Allowed { ... }` followed
by `return []string{}`. -/
def allowedLoop (parse : UrlParser) (msg : IncomingMessage) (cmd : String) :
    List Validation → Outcome
  | [] => .returned []
  | allowed :: rest =>
    if cmd ≠ allowed.Command then allowedLoop parse msg cmd rest
    else if msg.ExecArguments.length ≠ allowed.Arguments.length then
      allowedLoop parse msg cmd rest
    else
      match argumentsLoop parse msg.ExecArguments allowed.Arguments 0 ([] ++ [cmd]) with
      | .completed res => .returned res
      | .continueAllowed => allowedLoop parse msg cmd rest
      | .indexOutOfRange => .panicked

/-- The function `validateIncoming`; the global `configuration` and the library function
`url.Parse` are parameters. -/
def validateIncoming (configuration : Configuration) (parse : UrlParser)
    (msg : IncomingMessage) (cmd : String) : Outcome :=
  allowedLoop parse msg cmd configuration.Allowed

/-- The result is what the caller treats as accepted: `len(cmdAndArgs) > 0`. -/
def Accepted (o : Outcome) : Prop :=
  ∃ res, o = .returned res ∧ 0 < res.length

/-- The result is the empty slice of the final `return []string{}`. -/
def Rejected (o : Outcome) : Prop :=
  o = .returned []

instance decidableAccepted (o : Outcome) : Decidable (Accepted o) :=
  match o with
  | .panicked => isFalse (by rintro ⟨res, h, _⟩; cases h)
  | .returned res =>
    if hpos : 0 < res.length then isTrue ⟨res, rfl, hpos⟩
    else isFalse (by rintro ⟨res2, h, hp⟩; cases h; exact hpos hp)

instance decidableRejected (o : Outcome) : Decidable (Rejected o) :=
  inferInstanceAs (Decidable (o = .returned []))

/-! ## A model of Go's `net/url.Parse`

`validateIncoming` only looks at whether `url.Parse` fails and at the field `Scheme` of the
result, so the model computes exactly these two things.  It follows `Parse`, `parse`,
`getScheme`, `parseAuthority`, `parseHost`, `validOptionalPort`, `validUserinfo` and the
well-formedness pass of `unescape` of the Go standard library, working on code points (every
byte test of the library concerns an ASCII byte). -/

/-- Go `stringContainsCTLByte`, for one character: below `' '` or `0x7f`. -/
def isCTL (c : Char) : Bool :=
  c.toNat < 0x20 || c.toNat == 0x7f

/-- Go `ishex`. -/
def ishex (c : Char) : Bool :=
  ('0'.toNat ≤ c.toNat && c.toNat ≤ '9'.toNat) || ('a'.toNat ≤ c.toNat && c.toNat ≤ 'f'.toNat)
    || ('A'.toNat ≤ c.toNat && c.toNat ≤ 'F'.toNat)

/-- Go `unhex`. -/
def unhex (c : Char) : Nat :=
  if '0'.toNat ≤ c.toNat ∧ c.toNat ≤ '9'.toNat then c.toNat - '0'.toNat
  else if 'a'.toNat ≤ c.toNat ∧ c.toNat ≤ 'f'.toNat then c.toNat - 'a'.toNat + 10
  else if 'A'.toNat ≤ c.toNat ∧ c.toNat ≤ 'F'.toNat then c.toNat - 'A'.toNat + 10
  else 0

/-- An ASCII letter. -/
def isAlpha (c : Char) : Bool :=
  ('a'.toNat ≤ c.toNat && c.toNat ≤ 'z'.toNat) || ('A'.toNat ≤ c.toNat && c.toNat ≤ 'Z'.toNat)

/-- An ASCII digit. -/
def isDigit (c : Char) : Bool :=
  '0'.toNat ≤ c.toNat && c.toNat ≤ '9'.toNat

/-- The escaping modes of `net/url` that `Parse` uses. -/
inductive Encoding where
  | encodePath
  | encodeUserPassword
  | encodeHost
  | encodeZone
  | encodeFragment
deriving DecidableEq

/-- Go `shouldEscape(c, encodeHost)` for a character given by its code `v`. -/
def shouldEscapeHost (v : Nat) : Bool :=
  if ('a'.toNat ≤ v ∧ v ≤ 'z'.toNat) ∨ ('A'.toNat ≤ v ∧ v ≤ 'Z'.toNat)
      ∨ ('0'.toNat ≤ v ∧ v ≤ '9'.toNat) then false
  else if v ∈ ("!$&'()*+,;=:[]<>\"".data.map Char.toNat) then false
  else if v ∈ ("-_.~".data.map Char.toNat) then false
  else true

/-- The first pass of Go `unescape`: `true` when the string is well formed for the mode, that
is, when `unescape` returns no error. -/
def unescapeOk (mode : Encoding) : List Char → Bool
  | [] => true
  | c :: rest =>
    if c = '%' then
      match rest with
      | h1 :: h2 :: rest2 =>
        if !ishex h1 || !ishex h2 then false
        else if mode = .encodeHost ∧ unhex h1 < 8 ∧ ¬ (h1 = '2' ∧ h2 = '5') then false
        else if mode = .encodeZone ∧ ¬ (h1 = '2' ∧ h2 = '5') ∧ unhex h1 * 16 + unhex h2 ≠ ' '.toNat
            ∧ shouldEscapeHost (unhex h1 * 16 + unhex h2) = true then false
        else unescapeOk mode rest2
      | _ => false
    else if (mode = .encodeHost ∨ mode = .encodeZone) ∧ c.toNat < 0x80
        ∧ shouldEscapeHost c.toNat = true then false
    else unescapeOk mode rest

/-- Go `strings.Cut` for a one-character separator: the text before the first `sep`, the text
after it, and whether `sep` occurs. -/
def cut (sep : Char) (s : List Char) : List Char × List Char × Bool :=
  (s.takeWhile (· ≠ sep), (s.dropWhile (· ≠ sep)).drop 1, s.contains sep)

/-- Go `strings.LastIndex` for a one-character separator. -/
def lastIndex (sep : Char) (s : List Char) : Option Nat :=
  match (s.reverse.indexOf? sep) with
  | none => none
  | some j => some (s.length - 1 - j)

/-- Go `strings.Index(s, "%25")`. -/
def indexPercent25 : List Char → Option Nat
  | [] => none
  | c :: rest =>
    if ['%', '2', '5'].isPrefixOf (c :: rest) then some 0
    else (indexPercent25 rest).map (· + 1)

/-- Go `getScheme`: `none` is the error "missing protocol scheme", otherwise the scheme and the
rest. -/
def getSchemeLoop (rawURL : List Char) : List Char → Nat → Option (List Char × List Char)
  | [], _ => some ([], rawURL)
  | c :: cs, i =>
    if isAlpha c then getSchemeLoop rawURL cs (i + 1)
    else if isDigit c || c == '+' || c == '-' || c == '.' then
      if i = 0 then some ([], rawURL) else getSchemeLoop rawURL cs (i + 1)
    else if c == ':' then
      if i = 0 then none else some (rawURL.take i, rawURL.drop (i + 1))
    else some ([], rawURL)

/-- Go `getScheme`. -/
def getScheme (rawURL : List Char) : Option (List Char × List Char) :=
  getSchemeLoop rawURL rawURL 0

/-- Go `validOptionalPort`. -/
def validOptionalPort (port : List Char) : Bool :=
  match port with
  | [] => true
  | c :: digits => c == ':' && digits.all isDigit

/-- Go `validUserinfo`. -/
def validUserinfo (s : List Char) : Bool :=
  s.all (fun r => isAlpha r || isDigit r || "-._:~!$&'()*+,;=%@".data.contains r)

/-- Go `parseHost`, reduced to whether it succeeds, as in the releases Go 1.21 to 1.24.7: a
host in square brackets is checked for the closing bracket, the port and the escapes.  Later
releases also require an IPv6 address between the brackets and so reject some bracketed hosts
that this function lets pass; no statement below evaluates such a host, and the statements
about `validateIncoming` hold for every parser. -/
def parseHostOk (host : List Char) : Bool :=
  if ['['].isPrefixOf host then
    match lastIndex ']' host with
    | none => false
    | some i =>
      if !validOptionalPort (host.drop (i + 1)) then false
      else
        match indexPercent25 (host.take i) with
        | some zone =>
          unescapeOk .encodeHost (host.take zone)
            && unescapeOk .encodeZone ((host.take i).drop zone)
            && unescapeOk .encodeHost (host.drop i)
        | none => unescapeOk .encodeHost host
  else
    match lastIndex ':' host with
    | some i =>
      if !validOptionalPort (host.drop i) then false else unescapeOk .encodeHost host
    | none => unescapeOk .encodeHost host

/-- Go `parseAuthority`, reduced to whether it succeeds. -/
def parseAuthorityOk (authority : List Char) : Bool :=
  match lastIndex '@' authority with
  | none => parseHostOk authority
  | some i =>
    if !parseHostOk (authority.drop (i + 1)) then false
    else
      let userinfo := authority.take i
      if !validUserinfo userinfo then false
      else if !userinfo.contains ':' then unescapeOk .encodeUserPassword userinfo
      else
        unescapeOk .encodeUserPassword (cut ':' userinfo).1
          && unescapeOk .encodeUserPassword (cut ':' userinfo).2.1

/-- Go `parse(rawURL, false)`: the scheme of the parsed URL, or `none` for an error. -/
def parseNoFragment (rawURL : List Char) : Option (List Char) :=
  if rawURL.any isCTL then none
  else if rawURL = ['*'] then some []
  else
    match getScheme rawURL with
    | none => none
    | some (scheme0, rest0) =>
      let scheme := scheme0.map Char.toLower
      let rest1 :=
        if ['?'].isSuffixOf rest0 ∧ rest0.count '?' = 1 then rest0.dropLast
        else (cut '?' rest0).1
      if ¬ ['/'].isPrefixOf rest1 ∧ scheme ≠ [] then some scheme
      else if ¬ ['/'].isPrefixOf rest1 ∧ (cut '/' rest1).1.contains ':' then none
      else if (scheme ≠ [] ∨ ¬ ['/', '/', '/'].isPrefixOf rest1) ∧ ['/', '/'].isPrefixOf rest1 then
        let authority0 := rest1.drop 2
        let authority := authority0.takeWhile (· ≠ '/')
        let rest2 := authority0.dropWhile (· ≠ '/')
        if !parseAuthorityOk authority then none
        else if !unescapeOk .encodePath rest2 then none
        else some scheme
      else if !unescapeOk .encodePath rest1 then none
      else some scheme

/-- Go `url.Parse`: the parsed URL (its `Scheme`), or `none` for an error. -/
def urlParse : UrlParser := fun rawURL =>
  let u := (cut '#' rawURL.data).1
  let frag := (cut '#' rawURL.data).2.1
  match parseNoFragment u with
  | none => none
  | some scheme =>
    if frag = [] then some ⟨String.mk scheme⟩
    else if !unescapeOk .encodeFragment frag then none
    else some ⟨String.mk scheme⟩

/-! ## Dispatch: `parseMessage` -/

/-- The response structs handed to `send`. -/
inductive OutMessage where
  | OutgoingMessage (Version : String)
  | OutErrorMessage (Error : String) (Command : String) (Code : Nat)
  | OutEnvMessage (TMP TEMP : String)
  | OutSpecMessage (Version TMP TEMP Separator TmpDir : String)
  | OutExecMessage (Code : Nat) (StdOut : String) (StdErr : String)
deriving DecidableEq

/-- What `cmd.Output()` gives back: the captured standard output, whether `err != nil`, and the
`Stderr` of the error when it is an `*exec.ExitError`. -/
structure CmdOutput where
  stdout : String
  failed : Bool
  exitStderr : Option String

/-- The operating-system services `parseMessage` calls. -/
structure OS where
  Getenv : String → String
  PathSeparator : String
  Output : String → List String → CmdOutput

/-- The observable actions of `parseMessage`, in order. -/
inductive Effect where
  /-- The call `exec.Command(name, args...).Output()`: an external program is run. -/
  | exec (name : String) (args : List String)
  /-- The call `send(msg)`. -/
  | send (msg : OutMessage)
deriving DecidableEq

/-- The constant `appVersion`. -/
def appVersion : String := "1.0.1"

/-- The `case "exec":` branch of `parseMessage`.  The type assertion
`iMsg.ExecCommand.(string)` in the argument of `validateIncoming` has one result only, so it
panics for every dynamic type other than `string`; `none` is a panic. -/
def execBranch (os : OS) (configuration : Configuration) (parse : UrlParser)
    (iMsg : IncomingMessage) : Option (List Effect) :=
  match iMsg.ExecCommand with
  | .str cmd =>
    let cmdIsString := true
    match validateIncoming configuration parse iMsg cmd with
    | .panicked => none
    | .returned cmdAndArgs =>
      if cmdIsString = true ∧ cmdAndArgs.length > 0 then
        let out := os.Output (cmdAndArgs.headD "") (cmdAndArgs.drop 1)
        if out.failed then
          let errorMsg :=
            match out.exitStderr with
            | some stderr => if stderr.length > 0 then stderr else "Command failed without output"
            | none => "Command failed without output"
          some [.exec (cmdAndArgs.headD "") (cmdAndArgs.drop 1),
            .send (.OutExecMessage 5 out.stdout errorMsg)]
        else
          some [.exec (cmdAndArgs.headD "") (cmdAndArgs.drop 1),
            .send (.OutExecMessage 0 out.stdout "")]
      else some [.send (.OutErrorMessage "Usafe exec detected, ignored" "" 1000)]
  | _ => none

/-- The function `parseMessage`, after `decodeMessage`: the actions it performs, or `none` when
it panics. -/
def parseDecoded (os : OS) (configuration : Configuration) (parse : UrlParser)
    (iMsg : IncomingMessage) : Option (List Effect) :=
  if iMsg.Command = "version" then some [.send (.OutgoingMessage appVersion)]
  else if iMsg.Command = "exec" then execBranch os configuration parse iMsg
  else if iMsg.Command = "env" then
    some [.send (.OutEnvMessage (os.Getenv "TMP") (os.Getenv "TEMP"))]
  else if iMsg.Command = "spec" then
    some [.send (.OutSpecMessage appVersion (os.Getenv "TMP") (os.Getenv "TEMP")
      os.PathSeparator (os.Getenv "TMP"))]
  else if iMsg.Command ∈ ["echo", "spawn", "clean-tmp", "ifup", "dir", "save-data", "net",
      "copy", "remove", "move"] then some []
  else some [.send (.OutErrorMessage "cmd is unknown" iMsg.Command 1000)]

/-- The function `parseMessage`; the JSON decoder `decodeMessage` is a parameter. -/
def parseMessage (decodeMessage : List Nat → IncomingMessage) (os : OS)
    (configuration : Configuration) (parse : UrlParser) (msg : List Nat) :
    Option (List Effect) :=
  parseDecoded os configuration parse (decodeMessage msg)

/-! ## Framing: `readMessageLength`, `writeMessageLength`, `read` -/

/-- The two values `binary.NativeEndian` can have. -/
inductive ByteOrder where
  | littleEndian
  | bigEndian
deriving DecidableEq

/-- The variable `bufferSize`. -/
def bufferSize : Nat := 8192

/-- The function `writeMessageLength`: the four bytes that
`binary.Write(os.Stdout, nativeEndian, uint32(len(msg)))` writes. -/
def writeMessageLength (nativeEndian : ByteOrder) (msg : List Nat) : List Nat :=
  let length := msg.length % 2 ^ 32
  match nativeEndian with
  | .littleEndian =>
    [length % 256, length / 2 ^ 8 % 256, length / 2 ^ 16 % 256, length / 2 ^ 24 % 256]
  | .bigEndian =>
    [length / 2 ^ 24 % 256, length / 2 ^ 16 % 256, length / 2 ^ 8 % 256, length % 256]

/-- The function `readMessageLength`: `binary.Read` decodes the first four bytes into a
`uint32`; when there are fewer it fails and `length` keeps its zero value.  The conversion
`int(length)` keeps the value (an `int` of 64 bits). -/
def readMessageLength (nativeEndian : ByteOrder) (msg : List Nat) : Nat :=
  match msg with
  | b0 :: b1 :: b2 :: b3 :: _ =>
    match nativeEndian with
    | .littleEndian => (b0 + b1 * 2 ^ 8 + b2 * 2 ^ 16 + b3 * 2 ^ 24) % 2 ^ 32
    | .bigEndian => (b3 + b2 * 2 ^ 8 + b1 * 2 ^ 16 + b0 * 2 ^ 24) % 2 ^ 32
  | _ => 0

/-- The bytes `send` writes for a marshalled message: the length, then the message. -/
def sendBytes (nativeEndian : ByteOrder) (byteMsg : List Nat) : List Nat :=
  writeMessageLength nativeEndian byteMsg ++ byteMsg

/-- The bytes of several frames written one after the other. -/
def framesOf (nativeEndian : ByteOrder) (payloads : List (List Nat)) : List Nat :=
  (payloads.map (sendBytes nativeEndian)).flatten

/-- The reader `s` of `read`: a `bufio.Reader` of size `bufferSize`.  `buf` holds the bytes
that are buffered and not yet read; `rd` is standard input, as the list of the byte blocks that
successive `Read` calls on it find available (no block left: end of file).  The inner
`bufio.NewReader(os.Stdin)` passes every read through: its buffer of 4096 bytes is empty and
`s` only asks it for `bufferSize` bytes or more. -/
structure Reader where
  buf : List Nat
  rd : List (List Nat)

/-- The result of a `Read` call: the slice `p` after the call, the count `n`, whether the error
is `io.EOF` (otherwise it is `nil`), and the reader afterwards. -/
structure ReadResult where
  p : List Nat
  n : Nat
  eof : Bool
  reader : Reader

/-- One `Read(p)` on standard input with `len(p) = size > 0`: the bytes read, whether the
result is `io.EOF`, and the input that is left. -/
def stdinRead (rd : List (List Nat)) (size : Nat) : List Nat × Bool × List (List Nat) :=
  match rd with
  | [] => ([], true, [])
  | block :: rest =>
    if (block.drop size).isEmpty then (block, false, rest)
    else (block.take size, false, block.drop size :: rest)

/-- Go `copy(p, src)`: the slice `p` after the copy. -/
def copyInto (p src : List Nat) : List Nat :=
  src.take p.length ++ p.drop src.length

/-- The method `(*bufio.Reader).Read` for the reader `s`. -/
def Reader.Read (b : Reader) (p : List Nat) : ReadResult :=
  if p.length = 0 then ⟨p, 0, false, b⟩
  else if b.buf.isEmpty then
    if p.length ≥ bufferSize then
      let r := stdinRead b.rd p.length
      ⟨copyInto p r.1, r.1.length, r.2.1, ⟨[], r.2.2⟩⟩
    else
      let r := stdinRead b.rd bufferSize
      if r.1.length = 0 then ⟨p, 0, r.2.1, ⟨[], r.2.2⟩⟩
      else ⟨copyInto p r.1, min p.length r.1.length, false, ⟨r.1.drop p.length, r.2.2⟩⟩
  else ⟨copyInto p b.buf, min p.length b.buf.length, false, ⟨b.buf.drop p.length, b.rd⟩⟩

/-- How the loop of `read` ends. -/
inductive LoopExit where
  /-- The loop condition `b > 0 && err == nil` failed: "Stdin closed." -/
  | stdinClosed
  /-- The call of `parseMessage` panicked. -/
  | crashed
  /-- The model ran out of fuel (never the case for `read`, see `read_exit`). -/
  | outOfFuel
deriving DecidableEq

/-- What a run of `read` did: the `content` slices handed to `parseMessage`, in order, and how
the loop ended. -/
structure ReadRun where
  handed : List (List Nat)
  exit : LoopExit
deriving DecidableEq

/-- The loop of `read`: `lengthBytes` is the slice of that name, which the loop reuses;
`returns content` tells whether `parseMessage(content)` returns (rather than panics). -/
def readLoop (nativeEndian : ByteOrder) (returns : List Nat → Bool) :
    Nat → List Nat → Reader → ReadRun
  | 0, _, _ => ⟨[], .outOfFuel⟩
  | fuel + 1, lengthBytes, s =>
    let r := s.Read lengthBytes
    if r.n > 0 ∧ r.eof = false then
      let lengthNum := readMessageLength nativeEndian r.p
      let content := List.replicate lengthNum 0
      let r2 := r.reader.Read content
      if returns r2.p = true then
        let run := readLoop nativeEndian returns fuel r.p r2.reader
        ⟨r2.p :: run.handed, run.exit⟩
      else ⟨[r2.p], .crashed⟩
    else ⟨[], .stdinClosed⟩

/-- The number of bytes a reader can still deliver. -/
def Reader.remaining (b : Reader) : Nat :=
  b.buf.length + (b.rd.map List.length).sum

/-- The function `read` on the standard input `stdin`: every pass of the loop consumes at least
one byte, so the fuel given here is never used up. -/
def read (nativeEndian : ByteOrder) (returns : List Nat → Bool) (stdin : List (List Nat)) :
    ReadRun :=
  readLoop nativeEndian returns ((Reader.mk [] stdin).remaining + 1) [0, 0, 0, 0] ⟨[], stdin⟩

/-! ## The argv a rule stands for, in the words of the specification -/

/-- Removing each entry of `cuts` once as a prefix, in list order. -/
def specStripPrefixes : List String → String → String
  | [], value => value
  | entry :: cuts, value =>
    if entry.data <+: value.data then
      specStripPrefixes cuts (String.mk (value.data.drop entry.data.length))
    else specStripPrefixes cuts value

/-- Removing each entry of `cuts` once as a suffix, in list order. -/
def specStripSuffixes : List String → String → String
  | [], value => value
  | entry :: cuts, value =>
    if entry.data <:+ value.data then
      specStripSuffixes cuts (String.mk (value.data.take (value.data.length - entry.data.length)))
    else specStripSuffixes cuts value

/-- The request value after the prefixes of `trim_left` and then the suffixes of `trim_right`
have been removed. -/
def specTrimmed (argument : ValidationArg) (value : String) : String :=
  specStripSuffixes argument.TrimRight (specStripPrefixes argument.TrimLeft value)

/-- The tokens of `t`: `t` split at every space when `split_on_space` holds, `[t]` otherwise. -/
def specTokens (t : String) (splitOnSpace : Bool) : List String :=
  if splitOnSpace then (t.data.splitOn ' ').map String.mk else [t]

/-- The argv of a rule for a request: the rule's command, then for each argument position in
order `insert_before ++ tokens(t) ++ insert_after`. -/
def specArgv (rule : Validation) (arguments : List String) : List String :=
  rule.Command :: (rule.Arguments.zip arguments).flatMap (fun av =>
    av.1.InsertBefore ++ specTokens (specTrimmed av.1 av.2) av.1.SplitSpace ++ av.1.InsertAfter)

/-! ## Example configurations and requests -/

/-- The rule set of the end-to-end scenarios: `notepad` with one argument from a list. -/
def notepadRules : Configuration :=
  ⟨[{ Command := "notepad",
      Arguments := [{ ArgType := "list", Values := ["a.txt", "b.txt"] }] }]⟩

/-- A rule whose only argument has the type `regex`, which the `switch` does not know. -/
def regexRule : Validation :=
  { Command := "notepad", Arguments := [{ ArgType := "regex", Value := "^[a-z]+[.]txt$" }] }

/-- An argument of type `url` that loses the prefix `open:` and follows the option
`--new-tab`. -/
def browserArg : ValidationArg :=
  { ArgType := "url", InsertBefore := ["--new-tab"], TrimLeft := ["open:"] }

/-- A rule with the one argument `browserArg`. -/
def browserRule : Validation :=
  { Command := "firefox", Arguments := [browserArg] }

/-- An argument of type `list` whose value is split at spaces and followed by `--wait`. -/
def editorListArg : ValidationArg :=
  { ArgType := "list", Values := ["a.txt 10", "b.txt"], SplitSpace := true,
    InsertAfter := ["--wait"] }

/-- A rule with two arguments: a fixed word, and the list argument `editorListArg`. -/
def editorRule : Validation :=
  { Command := "code",
    Arguments := [{ ArgType := "string", Value := "--goto", TrimRight := ["!"] },
      editorListArg] }

/-- Three rules for `notepad`: the first does not accept `a.txt`, the second and the third
do, with different argvs. -/
def printRules : List Validation :=
  [{ Command := "notepad", Arguments := [{ ArgType := "list", Values := ["z.txt"] }] },
   { Command := "notepad",
     Arguments := [{ ArgType := "list", Values := ["a.txt"], InsertBefore := ["/p"] }] },
   { Command := "notepad", Arguments := [{ ArgType := "list", Values := ["a.txt", "b.txt"] }] }]

/-- An `exec` request for `command` with the given arguments. -/
def execRequest (command : String) (arguments : List String) : IncomingMessage :=
  { Command := "exec", ExecCommand := .str command, ExecArguments := arguments }

/-! ## Facts about the library functions -/

theorem splitChars_eq_splitOn (sep : Char) (l : List Char) :
    splitChars sep l = l.splitOn sep := by
  induction l with
  | nil => simp [splitChars, List.splitOn, List.splitOnP_nil]
  | cons c cs ih =>
    unfold splitChars
    rw [ih]
    simp only [List.splitOn, List.splitOnP_cons]
    by_cases h : c = sep
    · simp [h]
    · simp only [h, if_false, beq_iff_eq]
      cases hs : List.splitOnP (fun x => x == sep) cs with
      | nil => exact absurd hs (List.splitOnP_ne_nil _ _)
      | cons tok toks => simp [List.modifyHead]

theorem trimLeftLoop_eq_spec (cuts : List String) (value : String) :
    trimLeftLoop value cuts = specStripPrefixes cuts value := by
  induction cuts generalizing value with
  | nil => rfl
  | cons entry cuts ih =>
    simp only [trimLeftLoop, List.foldl_cons, specStripPrefixes] at ih ⊢
    by_cases h : entry.data <+: value.data
    · have hb : entry.data.isPrefixOf value.data = true := by simpa using h
      simp [trimPrefix, hb, h, ih]
    · have hb : entry.data.isPrefixOf value.data = false := by
        rw [Bool.eq_false_iff]; simpa using h
      simp [trimPrefix, hb, h, ih]

theorem trimRightLoop_eq_spec (cuts : List String) (value : String) :
    trimRightLoop value cuts = specStripSuffixes cuts value := by
  induction cuts generalizing value with
  | nil => rfl
  | cons entry cuts ih =>
    simp only [trimRightLoop, List.foldl_cons, specStripSuffixes] at ih ⊢
    by_cases h : entry.data <:+ value.data
    · have hb : entry.data.isSuffixOf value.data = true := by simpa using h
      simp [trimSuffix, hb, h, ih]
    · have hb : entry.data.isSuffixOf value.data = false := by
        rw [Bool.eq_false_iff]; simpa using h
      simp [trimSuffix, hb, h, ih]

theorem trimmed_eq_spec (argument : ValidationArg) (value : String) :
    trimmed argument value = specTrimmed argument value := by
  simp [trimmed, specTrimmed, trimLeftLoop_eq_spec, trimRightLoop_eq_spec]

theorem appendSplit_eq_spec (t : String) (splitOnSpace : Bool) :
    appendSplit t splitOnSpace = specTokens t splitOnSpace := by
  simp [appendSplit, specTokens, splitSpace, splitChars_eq_splitOn]

/-! ## Facts about the loop over the arguments -/

theorem argumentsLoop_cons (parse : UrlParser) (args : List String) (argument : ValidationArg)
    (rest : List ValidationArg) (i : Nat) (res : List String) (raw : String)
    (hraw : args[i]? = some raw) :
    argumentsLoop parse args (argument :: rest) i res =
      match typeSwitch parse argument (trimmed argument raw) with
      | .continueAllowed => .continueAllowed
      | .continueInner => argumentsLoop parse args rest (i + 1) res
      | .fallOut =>
        argumentsLoop parse args rest (i + 1)
          (res ++ argument.InsertBefore
            ++ appendSplit (trimmed argument raw) argument.SplitSpace ++ argument.InsertAfter) := by
  rw [argumentsLoop, hraw]

theorem argumentsLoop_no_panic (parse : UrlParser) (args : List String) :
    ∀ (specs : List ValidationArg) (i : Nat) (res : List String),
      i + specs.length ≤ args.length →
      argumentsLoop parse args specs i res ≠ .indexOutOfRange := by
  intro specs
  induction specs with
  | nil => intro i res _; simp [argumentsLoop]
  | cons argument rest ih =>
    intro i res h
    have hi : i < args.length := by simp only [List.length_cons] at h; omega
    have hraw : args[i]? = some args[i] := List.getElem?_eq_getElem hi
    rw [argumentsLoop_cons parse args argument rest i res _ hraw]
    have hrest : i + 1 + rest.length ≤ args.length := by
      simp only [List.length_cons] at h; omega
    cases typeSwitch parse argument (trimmed argument args[i]) with
    | fallOut => exact ih _ _ hrest
    | continueAllowed => simp
    | continueInner => exact ih _ _ hrest

theorem argumentsLoop_completed_prefix (parse : UrlParser) (args : List String) :
    ∀ (specs : List ValidationArg) (i : Nat) (res out : List String),
      argumentsLoop parse args specs i res = .completed out → ∃ tail, out = res ++ tail := by
  intro specs
  induction specs with
  | nil =>
    intro i res out h
    simp only [argumentsLoop, InnerExit.completed.injEq] at h
    exact ⟨[], by simp [h]⟩
  | cons argument rest ih =>
    intro i res out h
    cases hraw : args[i]? with
    | none => simp [argumentsLoop, hraw] at h
    | some raw =>
      rw [argumentsLoop_cons parse args argument rest i res raw hraw] at h
      cases hs : typeSwitch parse argument (trimmed argument raw) with
      | fallOut =>
        rw [hs] at h
        obtain ⟨tail, ht⟩ := ih _ _ _ h
        exact ⟨argument.InsertBefore ++ appendSplit (trimmed argument raw) argument.SplitSpace
          ++ argument.InsertAfter ++ tail, by rw [ht]; simp only [List.append_assoc]⟩
      | continueAllowed => rw [hs] at h; simp at h
      | continueInner => rw [hs] at h; exact ih _ _ _ h

/-- When the loop over the arguments runs to its end, every position had a request value and
its `switch` did not execute `continue ALLOWED`. -/
theorem argumentsLoop_completed_position (parse : UrlParser) (args : List String) :
    ∀ (specs : List ValidationArg) (i : Nat) (res out : List String),
      argumentsLoop parse args specs i res = .completed out →
      ∀ (j : Nat) (a : ValidationArg), specs[j]? = some a →
        ∃ v, args[i + j]? = some v ∧ typeSwitch parse a (trimmed a v) ≠ .continueAllowed := by
  intro specs
  induction specs with
  | nil => intro i res out _ j a hj; simp at hj
  | cons argument rest ih =>
    intro i res out h j a hj
    cases hraw : args[i]? with
    | none => simp [argumentsLoop, hraw] at h
    | some raw =>
      rw [argumentsLoop_cons parse args argument rest i res raw hraw] at h
      cases j with
      | zero =>
        simp only [List.getElem?_cons_zero, Option.some.injEq] at hj
        subst hj
        refine ⟨raw, by simpa using hraw, ?_⟩
        intro hs
        rw [hs] at h
        simp at h
      | succ j =>
        simp only [List.getElem?_cons_succ] at hj
        have key : ∀ res2, argumentsLoop parse args rest (i + 1) res2 = .completed out →
            ∃ v, args[i + (j + 1)]? = some v
              ∧ typeSwitch parse a (trimmed a v) ≠ .continueAllowed := by
          intro res2 h2
          obtain ⟨v, hv, hne⟩ := ih _ _ _ h2 j a hj
          exact ⟨v, by rw [← hv]; congr 1; omega, hne⟩
        cases hs : typeSwitch parse argument (trimmed argument raw) with
        | fallOut => rw [hs] at h; exact key _ h
        | continueAllowed => rw [hs] at h; simp at h
        | continueInner => rw [hs] at h; exact key _ h

/-- With argument types from the three known ones only, a completed loop has appended the
pieces of every position. -/
theorem argumentsLoop_completed_known (parse : UrlParser) (args : List String) :
    ∀ (specs : List ValidationArg) (i : Nat) (res out : List String),
      (∀ a ∈ specs, a.ArgType = "string" ∨ a.ArgType = "list" ∨ a.ArgType = "url") →
      argumentsLoop parse args specs i res = .completed out →
      out = res ++ (specs.zip (args.drop i)).flatMap (fun av =>
        av.1.InsertBefore ++ appendSplit (trimmed av.1 av.2) av.1.SplitSpace
          ++ av.1.InsertAfter) := by
  intro specs
  induction specs with
  | nil =>
    intro i res out _ h
    simp only [argumentsLoop, InnerExit.completed.injEq] at h
    simp [h]
  | cons argument rest ih =>
    intro i res out hk h
    cases hraw : args[i]? with
    | none => simp [argumentsLoop, hraw] at h
    | some raw =>
      rw [argumentsLoop_cons parse args argument rest i res raw hraw] at h
      have hi : i < args.length := by
        by_contra hc
        rw [List.getElem?_eq_none (by omega)] at hraw
        simp at hraw
      have hdrop : args.drop i = raw :: args.drop (i + 1) := by
        rw [List.drop_eq_getElem_cons hi]
        congr 1
        rw [List.getElem?_eq_getElem hi] at hraw
        simpa using hraw
      have hk2 : ∀ a ∈ rest, a.ArgType = "string" ∨ a.ArgType = "list" ∨ a.ArgType = "url" :=
        fun a ha => hk a (List.mem_cons_of_mem _ ha)
      cases hs : typeSwitch parse argument (trimmed argument raw) with
      | fallOut =>
        rw [hs] at h
        rw [ih _ _ _ hk2 h, hdrop]
        simp [List.append_assoc]
      | continueAllowed => rw [hs] at h; simp at h
      | continueInner =>
        exfalso
        have hty := hk argument (List.mem_cons_self _ _)
        unfold typeSwitch at hs
        rcases hty with h1 | h1 | h1
        · rw [if_pos h1] at hs
          split at hs <;> simp at hs
        · have h0 : argument.ArgType ≠ "string" := by rw [h1]; decide
          rw [if_neg h0, if_pos h1] at hs
          split at hs <;> simp at hs
        · have h0 : argument.ArgType ≠ "string" := by rw [h1]; decide
          have h2 : argument.ArgType ≠ "list" := by rw [h1]; decide
          rw [if_neg h0, if_neg h2, if_pos h1] at hs
          split at hs
          · simp at hs
          · split at hs <;> simp at hs

/-- The loop over the arguments runs to its end when every position has a request value and
no `switch` executes `continue ALLOWED`. -/
theorem argumentsLoop_completes (parse : UrlParser) (args : List String) :
    ∀ (specs : List ValidationArg) (i : Nat) (res : List String),
      i + specs.length ≤ args.length →
      (∀ (j : Nat) (a : ValidationArg) (v : String), specs[j]? = some a →
        args[i + j]? = some v → typeSwitch parse a (trimmed a v) ≠ .continueAllowed) →
      ∃ out, argumentsLoop parse args specs i res = .completed out := by
  intro specs
  induction specs with
  | nil => intro i res _ _; exact ⟨res, by simp [argumentsLoop]⟩
  | cons argument rest ih =>
    intro i res hlen hall
    have hi : i < args.length := by simp only [List.length_cons] at hlen; omega
    have hraw : args[i]? = some args[i] := List.getElem?_eq_getElem hi
    have hrest : i + 1 + rest.length ≤ args.length := by
      simp only [List.length_cons] at hlen; omega
    have hall2 : ∀ (j : Nat) (a : ValidationArg) (v : String), rest[j]? = some a →
        args[i + 1 + j]? = some v → typeSwitch parse a (trimmed a v) ≠ .continueAllowed := by
      intro j a v hj hv
      refine hall (j + 1) a v (by simp [hj]) ?_
      rw [← hv]; congr 1; omega
    have h0 := hall 0 argument args[i] (by simp) (by simp)
    rw [argumentsLoop_cons parse args argument rest i res _ hraw]
    cases hs : typeSwitch parse argument (trimmed argument args[i]) with
    | fallOut => exact ih _ _ hrest hall2
    | continueAllowed => exact absurd hs h0
    | continueInner => exact ih _ _ hrest hall2

/-! ## Facts about the loop over the rules -/

theorem allowedLoop_nil (parse : UrlParser) (msg : IncomingMessage) (cmd : String) :
    allowedLoop parse msg cmd [] = .returned [] := rfl

theorem allowedLoop_step (parse : UrlParser) (msg : IncomingMessage) (cmd : String)
    (allowed : Validation) (rest : List Validation) :
    allowedLoop parse msg cmd (allowed :: rest) =
      if cmd ≠ allowed.Command then allowedLoop parse msg cmd rest
      else if msg.ExecArguments.length ≠ allowed.Arguments.length then
        allowedLoop parse msg cmd rest
      else
        match argumentsLoop parse msg.ExecArguments allowed.Arguments 0 [cmd] with
        | .completed res => .returned res
        | .continueAllowed => allowedLoop parse msg cmd rest
        | .indexOutOfRange => .panicked := by
  rw [allowedLoop]
  rfl

theorem allowedLoop_no_panic (parse : UrlParser) (msg : IncomingMessage) (cmd : String)
    (rules : List Validation) : allowedLoop parse msg cmd rules ≠ .panicked := by
  induction rules with
  | nil => simp [allowedLoop]
  | cons allowed rest ih =>
    rw [allowedLoop_step]
    by_cases hc : cmd ≠ allowed.Command
    · rw [if_pos hc]; exact ih
    · by_cases hl : msg.ExecArguments.length ≠ allowed.Arguments.length
      · rw [if_neg hc, if_pos hl]; exact ih
      · rw [if_neg hc, if_neg hl]
        have hnp := argumentsLoop_no_panic parse msg.ExecArguments allowed.Arguments 0
          [cmd] (by simp only [not_not] at hl; omega)
        cases hloop : argumentsLoop parse msg.ExecArguments allowed.Arguments 0 [cmd] with
        | completed res => simp
        | continueAllowed => exact ih
        | indexOutOfRange => exact absurd hloop hnp

/-- A single rule either is abandoned (empty result) or returns a slice that starts with the
request's command, which is the rule's command. -/
theorem allowedLoop_single (parse : UrlParser) (msg : IncomingMessage) (cmd : String)
    (allowed : Validation) :
    allowedLoop parse msg cmd [allowed] = .returned [] ∨
      ∃ tail, allowedLoop parse msg cmd [allowed] = .returned (cmd :: tail)
        ∧ cmd = allowed.Command
        ∧ msg.ExecArguments.length = allowed.Arguments.length
        ∧ argumentsLoop parse msg.ExecArguments allowed.Arguments 0 [cmd]
            = .completed (cmd :: tail) := by
  rw [allowedLoop_step, allowedLoop_nil]
  by_cases hc : cmd ≠ allowed.Command
  · left; rw [if_pos hc]
  · by_cases hl : msg.ExecArguments.length ≠ allowed.Arguments.length
    · left; rw [if_neg hc, if_pos hl]
    · rw [if_neg hc, if_neg hl]
      simp only [not_not] at hc hl
      cases hloop : argumentsLoop parse msg.ExecArguments allowed.Arguments 0 [cmd] with
      | completed res =>
        right
        obtain ⟨tail, ht⟩ := argumentsLoop_completed_prefix parse _ _ _ _ _ hloop
        exact ⟨tail, by simp [ht], hc, hl, by simp [ht]⟩
      | continueAllowed => left; rfl
      | indexOutOfRange =>
        exact absurd hloop (argumentsLoop_no_panic parse _ _ _ _ (by omega))

/-- The loop over the rules tries the first rule on its own and goes on with the others only
when the first one returned the empty result. -/
theorem allowedLoop_cons (parse : UrlParser) (msg : IncomingMessage) (cmd : String)
    (allowed : Validation) (rest : List Validation) :
    allowedLoop parse msg cmd (allowed :: rest) =
      if allowedLoop parse msg cmd [allowed] = .returned [] then allowedLoop parse msg cmd rest
      else allowedLoop parse msg cmd [allowed] := by
  have hnp := allowedLoop_no_panic parse msg cmd [allowed]
  rw [allowedLoop_step parse msg cmd allowed [], allowedLoop_nil] at hnp
  rw [allowedLoop_step parse msg cmd allowed rest, allowedLoop_step parse msg cmd allowed [],
    allowedLoop_nil]
  by_cases hc : cmd ≠ allowed.Command
  · simp only [if_pos hc, if_true]
  · by_cases hl : msg.ExecArguments.length ≠ allowed.Arguments.length
    · simp only [if_neg hc, if_pos hl, if_true]
    · rw [if_neg hc, if_neg hl] at hnp
      simp only [if_neg hc, if_neg hl]
      cases hloop : argumentsLoop parse msg.ExecArguments allowed.Arguments 0 [cmd] with
      | completed res =>
        obtain ⟨tail, ht⟩ := argumentsLoop_completed_prefix parse _ _ _ _ _ hloop
        simp [ht]
      | continueAllowed => simp
      | indexOutOfRange => rw [hloop] at hnp; simp at hnp

theorem allowedLoop_append (parse : UrlParser) (msg : IncomingMessage) (cmd : String)
    (r1 r2 : List Validation) :
    allowedLoop parse msg cmd (r1 ++ r2) =
      if allowedLoop parse msg cmd r1 = .returned [] then allowedLoop parse msg cmd r2
      else allowedLoop parse msg cmd r1 := by
  induction r1 with
  | nil => simp [allowedLoop]
  | cons allowed rest ih =>
    rw [List.cons_append, allowedLoop_cons parse msg cmd allowed (rest ++ r2),
      allowedLoop_cons parse msg cmd allowed rest, ih]
    by_cases h1 : allowedLoop parse msg cmd [allowed] = .returned []
    · simp [h1]
    · simp [h1]

theorem allowedLoop_rejected_iff (parse : UrlParser) (msg : IncomingMessage) (cmd : String)
    (rules : List Validation) :
    allowedLoop parse msg cmd rules = .returned [] ↔
      ∀ allowed ∈ rules, allowedLoop parse msg cmd [allowed] = .returned [] := by
  induction rules with
  | nil => simp [allowedLoop]
  | cons allowed rest ih =>
    rw [allowedLoop_cons]
    by_cases h1 : allowedLoop parse msg cmd [allowed] = .returned []
    · simp [h1, ih]
    · simp [h1]

theorem validateIncoming_eq (configuration : Configuration) (parse : UrlParser)
    (msg : IncomingMessage) (cmd : String) :
    validateIncoming configuration parse msg cmd
      = allowedLoop parse msg cmd configuration.Allowed := rfl

theorem allowedLoop_accepted_mem (parse : UrlParser) (msg : IncomingMessage) (cmd : String)
    (rules : List Validation) (res : List String)
    (h : allowedLoop parse msg cmd rules = .returned res) (hne : res ≠ []) :
    ∃ allowed ∈ rules, allowedLoop parse msg cmd [allowed] = .returned res := by
  induction rules with
  | nil =>
    rw [allowedLoop_nil] at h
    exact absurd (Outcome.returned.inj h).symm hne
  | cons allowed rest ih =>
    rw [allowedLoop_cons] at h
    by_cases h1 : allowedLoop parse msg cmd [allowed] = .returned []
    · rw [if_pos h1] at h
      obtain ⟨a, ha, hres⟩ := ih h
      exact ⟨a, List.mem_cons_of_mem _ ha, hres⟩
    · rw [if_neg h1] at h
      exact ⟨allowed, List.mem_cons_self _ _, h⟩

theorem length_pos_iff_ne_nil (res : List String) : 0 < res.length ↔ res ≠ [] := by
  cases res <;> simp

theorem accepted_iff_not_rejected (parse : UrlParser) (msg : IncomingMessage) (cmd : String)
    (rules : List Validation) :
    Accepted (allowedLoop parse msg cmd rules) ↔ ¬ Rejected (allowedLoop parse msg cmd rules) := by
  unfold Accepted Rejected
  cases h : allowedLoop parse msg cmd rules with
  | panicked => exact absurd h (allowedLoop_no_panic parse msg cmd rules)
  | returned res =>
    cases res with
    | nil => simp
    | cons x xs => simp

/-- A rule with one argument spec, tried on a request with one argument. -/
theorem single_argument_rule (parse : UrlParser) (msg : IncomingMessage) (cmd : String)
    (a : ValidationArg) (v : String) (hv : msg.ExecArguments = [v]) :
    validateIncoming ⟨[⟨cmd, [a]⟩]⟩ parse msg cmd =
      match typeSwitch parse a (trimmed a v) with
      | .continueAllowed => .returned []
      | .continueInner => .returned [cmd]
      | .fallOut =>
        .returned ([cmd] ++ a.InsertBefore ++ appendSplit (trimmed a v) a.SplitSpace
          ++ a.InsertAfter) := by
  rw [validateIncoming_eq, allowedLoop_step, allowedLoop_nil, hv]
  simp only [ne_eq, not_true_eq_false, if_false, List.length_cons, List.length_nil]
  rw [argumentsLoop_cons parse [v] a [] 0 [cmd] v (by simp)]
  cases typeSwitch parse a (trimmed a v) <;> simp [argumentsLoop]

theorem typeSwitch_string (parse : UrlParser) (a : ValidationArg) (t : String)
    (hty : a.ArgType = "string") :
    typeSwitch parse a t =
      if a.Value.length = 0 ∨ t ≠ a.Value then .continueAllowed else .fallOut := by
  unfold typeSwitch
  rw [if_pos hty]

theorem typeSwitch_list (parse : UrlParser) (a : ValidationArg) (t : String)
    (hty : a.ArgType = "list") :
    typeSwitch parse a t =
      if a.Values.length = 0 ∨ ¬ slicesContains a.Values t = true then .continueAllowed
      else .fallOut := by
  unfold typeSwitch
  have h0 : a.ArgType ≠ "string" := by rw [hty]; decide
  rw [if_neg h0, if_pos hty]

theorem typeSwitch_url (parse : UrlParser) (a : ValidationArg) (t : String)
    (hty : a.ArgType = "url") :
    typeSwitch parse a t =
      match parse t with
      | none => .continueAllowed
      | some url =>
        if url.Scheme ≠ "http" ∧ url.Scheme ≠ "https" then .continueAllowed else .fallOut := by
  unfold typeSwitch
  have h0 : a.ArgType ≠ "string" := by rw [hty]; decide
  have h1 : a.ArgType ≠ "list" := by rw [hty]; decide
  rw [if_neg h0, if_neg h1, if_pos hty]

theorem typeSwitch_default (parse : UrlParser) (a : ValidationArg) (t : String)
    (h0 : a.ArgType ≠ "string") (h1 : a.ArgType ≠ "list") (h2 : a.ArgType ≠ "url") :
    typeSwitch parse a t = .continueInner := by
  unfold typeSwitch
  rw [if_neg h0, if_neg h1, if_neg h2]

theorem slicesContains_iff (values : List String) (v : String) :
    slicesContains values v = true ↔ v ∈ values := by
  unfold slicesContains
  simp only [List.any_eq_true, beq_iff_eq]
  constructor
  · rintro ⟨x, hx, rfl⟩; exact hx
  · intro h; exact ⟨v, h, rfl⟩

theorem string_length_eq_zero_iff (s : String) : s.length = 0 ↔ s = "" := by
  cases s with
  | mk d =>
    simp only [String.length, List.length_eq_zero]
    constructor
    · rintro rfl; rfl
    · intro h; exact congrArg String.data h

/-! ## The validator: the claims -/

/-- C1, evaluated on the code: the claim says that a rule with an argument of a type outside
"string", "list" and "url" is never accepted.  The `default` case of the `switch` executes a
plain `continue`, which goes on with the next argument instead of abandoning the rule, so the
rule `regexRule`, whose only argument has the type "regex", accepts every request for its
command with one argument, and a rule set made of this rule alone does not reject. -/
theorem unknown_type_rule_is_accepted (parse : UrlParser) :
    validateIncoming ⟨[regexRule]⟩ parse (execRequest "notepad" ["/etc/passwd"]) "notepad"
        = .returned ["notepad"]
      ∧ Accepted (validateIncoming ⟨[regexRule]⟩ parse
          (execRequest "notepad" ["/etc/passwd"]) "notepad")
      ∧ (∀ a ∈ regexRule.Arguments,
          a.ArgType ≠ "string" ∧ a.ArgType ≠ "list" ∧ a.ArgType ≠ "url") := by
  have h : validateIncoming ⟨[regexRule]⟩ parse (execRequest "notepad" ["/etc/passwd"])
      "notepad" = .returned ["notepad"] := by
    have hs := single_argument_rule parse (execRequest "notepad" ["/etc/passwd"]) "notepad"
      { ArgType := "regex", Value := "^[a-z]+[.]txt$" } "/etc/passwd" rfl
    rw [typeSwitch_default parse _ _ (by decide) (by decide) (by decide)] at hs
    exact hs
  refine ⟨h, ⟨["notepad"], h, by decide⟩, ?_⟩
  intro a ha
  simp only [regexRule, List.mem_singleton] at ha
  subst ha
  decide

/-- C3: whenever `validateIncoming` returns a non-empty result, some rule of the rule set
returns this very result when tried on its own, the result's first element is that rule's
`Command`, and it equals the requested command; and a request whose command equals no
configured command gets the empty result. -/
theorem accepted_argv_starts_with_rule_command (configuration : Configuration)
    (parse : UrlParser) (msg : IncomingMessage) (cmd : String) :
    (∀ res, validateIncoming configuration parse msg cmd = .returned res → 0 < res.length →
      ∃ allowed ∈ configuration.Allowed,
        validateIncoming ⟨[allowed]⟩ parse msg cmd = .returned res
          ∧ res.head? = some allowed.Command ∧ allowed.Command = cmd)
    ∧ ((∀ allowed ∈ configuration.Allowed, cmd ≠ allowed.Command) →
        Rejected (validateIncoming configuration parse msg cmd)) := by
  constructor
  · intro res h hpos
    rw [validateIncoming_eq] at h
    obtain ⟨allowed, hmem, hres⟩ :=
      allowedLoop_accepted_mem parse msg cmd _ res h ((length_pos_iff_ne_nil res).1 hpos)
    refine ⟨allowed, hmem, hres, ?_⟩
    rcases allowedLoop_single parse msg cmd allowed with h0 | ⟨tail, ht, hc, _, _⟩
    · rw [h0] at hres
      rw [← Outcome.returned.inj hres] at hpos
      simp at hpos
    · rw [ht] at hres
      rw [← Outcome.returned.inj hres, ← hc]
      simp
  · intro hall
    unfold Rejected
    rw [validateIncoming_eq, allowedLoop_rejected_iff]
    intro allowed hmem
    rw [allowedLoop_step, if_pos (hall allowed hmem), allowedLoop_nil]

/-- Witness for C3: the request `notepad a.txt` against `notepadRules` is accepted with the
rule's command first, and the request for `cmd.exe` is rejected. -/
theorem accepted_argv_starts_with_rule_command_witness :
    (∃ allowed ∈ notepadRules.Allowed,
        validateIncoming ⟨[allowed]⟩ urlParse (execRequest "notepad" ["a.txt"]) "notepad"
            = .returned ["notepad", "a.txt"]
          ∧ ["notepad", "a.txt"].head? = some allowed.Command ∧ allowed.Command = "notepad")
    ∧ Rejected (validateIncoming notepadRules urlParse (execRequest "cmd.exe" ["a.txt"])
        "cmd.exe") :=
  ⟨(accepted_argv_starts_with_rule_command notepadRules urlParse
      (execRequest "notepad" ["a.txt"]) "notepad").1 ["notepad", "a.txt"] (by decide)
      (by decide),
    (accepted_argv_starts_with_rule_command notepadRules urlParse
      (execRequest "cmd.exe" ["a.txt"]) "cmd.exe").2 (by decide)⟩

/-- C5: for a rule whose arguments all have a type in "string", "list", "url" and a request
that the rule accepts, the request has one value per argument spec and the result is the argv
of the specification: the rule's command followed, position by position, by
`insert_before ++ tokens(t) ++ insert_after` for the trimmed value `t`. -/
theorem accepted_argv_is_spec_argv (parse : UrlParser) (allowed : Validation)
    (msg : IncomingMessage) (cmd : String) (res : List String)
    (hknown : ∀ a ∈ allowed.Arguments,
      a.ArgType = "string" ∨ a.ArgType = "list" ∨ a.ArgType = "url")
    (hret : validateIncoming ⟨[allowed]⟩ parse msg cmd = .returned res)
    (hacc : 0 < res.length) :
    msg.ExecArguments.length = allowed.Arguments.length
      ∧ res = specArgv allowed msg.ExecArguments := by
  rw [validateIncoming_eq] at hret
  rcases allowedLoop_single parse msg cmd allowed with h0 | ⟨tail, ht, hc, hl, hloop⟩
  · rw [h0] at hret
    rw [← Outcome.returned.inj hret] at hacc
    simp at hacc
  · refine ⟨hl, ?_⟩
    rw [ht] at hret
    rw [← Outcome.returned.inj hret]
    have hk := argumentsLoop_completed_known parse msg.ExecArguments allowed.Arguments 0
      [cmd] (cmd :: tail) hknown hloop
    rw [hk, specArgv, ← hc]
    simp only [List.drop_zero, List.singleton_append, trimmed_eq_spec, appendSplit_eq_spec]

/-- Witness for C5: `editorRule` on the request `code --goto! "a.txt 10"`. -/
theorem accepted_argv_is_spec_argv_witness :
    (execRequest "code" ["--goto!", "a.txt 10"]).ExecArguments.length
        = editorRule.Arguments.length
      ∧ ["code", "--goto", "a.txt", "10", "--wait"]
        = specArgv editorRule (execRequest "code" ["--goto!", "a.txt 10"]).ExecArguments :=
  accepted_argv_is_spec_argv urlParse editorRule (execRequest "code" ["--goto!", "a.txt 10"])
    "code" ["code", "--goto", "a.txt", "10", "--wait"] (by decide) (by decide) (by decide)

/-- C6: `validateIncoming` never panics (the index `msg.ExecArguments[argIndex]` is always in
range); a rule whose number of argument specs differs from the number of request arguments
gives the empty result whatever the values are; and a rule set in which every rule for the
requested command has another arity rejects the request. -/
theorem arity_mismatch_never_matches (configuration : Configuration) (parse : UrlParser)
    (msg : IncomingMessage) (cmd : String) :
    validateIncoming configuration parse msg cmd ≠ .panicked
    ∧ (∀ allowed : Validation, msg.ExecArguments.length ≠ allowed.Arguments.length →
        Rejected (validateIncoming ⟨[allowed]⟩ parse msg cmd))
    ∧ ((∀ allowed ∈ configuration.Allowed, allowed.Command = cmd →
          msg.ExecArguments.length ≠ allowed.Arguments.length) →
        Rejected (validateIncoming configuration parse msg cmd)) := by
  have single : ∀ allowed : Validation,
      (allowed.Command = cmd → msg.ExecArguments.length ≠ allowed.Arguments.length) →
      allowedLoop parse msg cmd [allowed] = .returned [] := by
    intro allowed h
    rw [allowedLoop_step, allowedLoop_nil]
    by_cases hc : cmd ≠ allowed.Command
    · rw [if_pos hc]
    · rw [if_neg hc, if_pos (h (by simp only [not_not] at hc; exact hc.symm))]
  refine ⟨allowedLoop_no_panic parse msg cmd _, ?_, ?_⟩
  · intro allowed hlen
    exact single allowed (fun _ => hlen)
  · intro hall
    unfold Rejected
    rw [validateIncoming_eq, allowedLoop_rejected_iff]
    intro allowed hmem
    exact single allowed (hall allowed hmem)

/-- Witness for C6: `editorRule` has two argument specs and rejects a request with one
argument; `notepadRules` has one rule with one argument spec and rejects a request with two. -/
theorem arity_mismatch_never_matches_witness :
    Rejected (validateIncoming ⟨[editorRule]⟩ urlParse (execRequest "code" ["--goto"]) "code")
    ∧ Rejected (validateIncoming notepadRules urlParse
        (execRequest "notepad" ["a.txt", "b.txt"]) "notepad") :=
  ⟨(arity_mismatch_never_matches notepadRules urlParse (execRequest "code" ["--goto"])
      "code").2.1 editorRule (by decide),
    (arity_mismatch_never_matches notepadRules urlParse
      (execRequest "notepad" ["a.txt", "b.txt"]) "notepad").2.2 (by decide)⟩

/-- A rule tried on its own is accepted exactly when the command and the arity agree and no
position's `switch` executes `continue ALLOWED`. -/
theorem single_rule_accepted_iff (parse : UrlParser) (msg : IncomingMessage) (cmd : String)
    (allowed : Validation) :
    Accepted (validateIncoming ⟨[allowed]⟩ parse msg cmd) ↔
      cmd = allowed.Command ∧ msg.ExecArguments.length = allowed.Arguments.length
        ∧ ∀ (j : Nat) (a : ValidationArg) (v : String), allowed.Arguments[j]? = some a →
            msg.ExecArguments[j]? = some v →
            typeSwitch parse a (trimmed a v) ≠ .continueAllowed := by
  rw [validateIncoming_eq]
  constructor
  · intro hacc
    rcases allowedLoop_single parse msg cmd allowed with h0 | ⟨tail, _, hc, hl, hloop⟩
    · exact absurd h0 ((accepted_iff_not_rejected parse msg cmd [allowed]).1 hacc)
    · refine ⟨hc, hl, ?_⟩
      intro j a v hj hv
      obtain ⟨v2, hv2, hne⟩ := argumentsLoop_completed_position parse _ _ _ _ _ hloop j a hj
      rw [Nat.zero_add, hv] at hv2
      rw [Option.some.inj hv2]
      exact hne
  · rintro ⟨hc, hl, hall⟩
    obtain ⟨out, hout⟩ := argumentsLoop_completes parse msg.ExecArguments allowed.Arguments 0
      [cmd] (by omega) (by intro j a v hj hv; rw [Nat.zero_add] at hv; exact hall j a v hj hv)
    obtain ⟨tail, ht⟩ := argumentsLoop_completed_prefix parse _ _ _ _ _ hout
    refine ⟨out, ?_, by rw [ht]; simp⟩
    rw [allowedLoop_step, allowedLoop_nil, if_neg (by simpa using hc),
      if_neg (by simpa using hl), hout]

theorem typeSwitch_string_passes (parse : UrlParser) (a : ValidationArg) (t : String)
    (hty : a.ArgType = "string") :
    (typeSwitch parse a t ≠ .continueAllowed ↔ a.Value ≠ "" ∧ t = a.Value)
      ∧ (typeSwitch parse a t = .fallOut ↔ a.Value ≠ "" ∧ t = a.Value) := by
  rw [typeSwitch_string parse a t hty]
  by_cases hv : a.Value = ""
  · have hlen : a.Value.length = 0 := (string_length_eq_zero_iff _).2 hv
    simp [hlen, hv]
  · have hlen : ¬ a.Value.length = 0 := fun h => hv ((string_length_eq_zero_iff _).1 h)
    by_cases ht : t = a.Value
    · simp [hlen, hv, ht]
    · simp [hlen, hv, ht]

theorem typeSwitch_list_passes (parse : UrlParser) (a : ValidationArg) (t : String)
    (hty : a.ArgType = "list") :
    (typeSwitch parse a t ≠ .continueAllowed ↔ a.Values ≠ [] ∧ t ∈ a.Values)
      ∧ (typeSwitch parse a t = .fallOut ↔ a.Values ≠ [] ∧ t ∈ a.Values) := by
  rw [typeSwitch_list parse a t hty]
  by_cases hv : a.Values = []
  · simp [hv]
  · have hlen : ¬ a.Values.length = 0 := fun h => hv (List.length_eq_zero.1 h)
    by_cases ht : t ∈ a.Values
    · have hc : slicesContains a.Values t = true := (slicesContains_iff _ _).2 ht
      simp [hlen, hv, ht, hc]
    · have hc : ¬ slicesContains a.Values t = true := fun h => ht ((slicesContains_iff _ _).1 h)
      simp [hlen, hv, ht, hc]

/-- C7: a rule that contains an argument of type "string" with an empty `Value`, or of type
"list" with an empty `Values`, gives the empty result for every request.  At every position of
every rule the `switch` lets a "string" argument pass exactly when `Value` is not empty and
the trimmed value equals it, and a "list" argument exactly when `Values` is not empty and the
trimmed value is one of its elements; a rule tried on its own is accepted exactly when the
command and the arity agree and the argument of every position passes, so an accepted rule had
at each "string" position a trimmed value equal to `Value` and at each "list" position one in
`Values`.  For a rule with one argument this reads: the rule accepts a one-argument request
for its command exactly when the trimmed value equals `Value` (is an element of `Values`). -/
theorem empty_constraint_never_matches (parse : UrlParser) (msg : IncomingMessage)
    (cmd : String) :
    (∀ allowed : Validation,
      (∃ a ∈ allowed.Arguments,
        (a.ArgType = "string" ∧ a.Value = "") ∨ (a.ArgType = "list" ∧ a.Values = [])) →
      Rejected (validateIncoming ⟨[allowed]⟩ parse msg cmd))
    ∧ (∀ (a : ValidationArg) (v : String), msg.ExecArguments = [v] →
        a.ArgType = "string" → a.Value ≠ "" →
        (Accepted (validateIncoming ⟨[⟨cmd, [a]⟩]⟩ parse msg cmd) ↔ trimmed a v = a.Value))
    ∧ (∀ (a : ValidationArg) (v : String), msg.ExecArguments = [v] →
        a.ArgType = "list" → a.Values ≠ [] →
        (Accepted (validateIncoming ⟨[⟨cmd, [a]⟩]⟩ parse msg cmd) ↔ trimmed a v ∈ a.Values))
    ∧ (∀ (a : ValidationArg) (t : String), a.ArgType = "string" →
        (typeSwitch parse a t ≠ .continueAllowed ↔ a.Value ≠ "" ∧ t = a.Value)
          ∧ (typeSwitch parse a t = .fallOut ↔ a.Value ≠ "" ∧ t = a.Value))
    ∧ (∀ (a : ValidationArg) (t : String), a.ArgType = "list" →
        (typeSwitch parse a t ≠ .continueAllowed ↔ a.Values ≠ [] ∧ t ∈ a.Values)
          ∧ (typeSwitch parse a t = .fallOut ↔ a.Values ≠ [] ∧ t ∈ a.Values))
    ∧ (∀ allowed : Validation,
        Accepted (validateIncoming ⟨[allowed]⟩ parse msg cmd) ↔
          cmd = allowed.Command ∧ msg.ExecArguments.length = allowed.Arguments.length
            ∧ ∀ (j : Nat) (a : ValidationArg) (v : String), allowed.Arguments[j]? = some a →
                msg.ExecArguments[j]? = some v →
                typeSwitch parse a (trimmed a v) ≠ .continueAllowed)
    ∧ (∀ (allowed : Validation) (j : Nat) (a : ValidationArg),
        allowed.Arguments[j]? = some a →
        Accepted (validateIncoming ⟨[allowed]⟩ parse msg cmd) →
        ∃ v, msg.ExecArguments[j]? = some v
          ∧ (a.ArgType = "string" → a.Value ≠ "" ∧ trimmed a v = a.Value)
          ∧ (a.ArgType = "list" → a.Values ≠ [] ∧ trimmed a v ∈ a.Values))
    ∧ (∀ allowed : Validation,
        (∀ a ∈ allowed.Arguments, a.ArgType = "string" ∨ a.ArgType = "list") →
        (Accepted (validateIncoming ⟨[allowed]⟩ parse msg cmd) ↔
          cmd = allowed.Command ∧ msg.ExecArguments.length = allowed.Arguments.length
            ∧ ∀ (j : Nat) (a : ValidationArg) (v : String), allowed.Arguments[j]? = some a →
                msg.ExecArguments[j]? = some v →
                (a.ArgType = "string" → a.Value ≠ "" ∧ trimmed a v = a.Value)
                  ∧ (a.ArgType = "list" → a.Values ≠ [] ∧ trimmed a v ∈ a.Values))) := by
  have hsl : ("string" : String) ≠ "list" := by decide
  refine ⟨?_, ?_, ?_, ?_, ?_, ?_, ?_, ?_⟩
  · rintro allowed ⟨a, hmem, hbad⟩
    unfold Rejected
    rw [validateIncoming_eq]
    rcases allowedLoop_single parse msg cmd allowed with h0 | ⟨tail, _, _, _, hloop⟩
    · exact h0
    · exfalso
      obtain ⟨j, hj, hget⟩ := List.getElem_of_mem hmem
      have hj2 : allowed.Arguments[j]? = some a := by
        rw [List.getElem?_eq_getElem hj, hget]
      obtain ⟨v, _, hne⟩ :=
        argumentsLoop_completed_position parse _ _ _ _ _ hloop j a hj2
      apply hne
      rcases hbad with ⟨hty, hval⟩ | ⟨hty, hval⟩
      · rw [typeSwitch_string parse a _ hty, hval]
        simp
      · rw [typeSwitch_list parse a _ hty, hval]
        simp
  · intro a v hv hty hval
    have hlen : ¬ a.Value.length = 0 := fun h => hval ((string_length_eq_zero_iff _).1 h)
    rw [single_argument_rule parse msg cmd a v hv, typeSwitch_string parse a _ hty]
    unfold Accepted
    by_cases ht : trimmed a v = a.Value
    · simp [hlen, ht]
    · simp [hlen, ht]
  · intro a v hv hty hval
    have hlen : ¬ a.Values.length = 0 := fun h => hval (List.length_eq_zero.1 h)
    rw [single_argument_rule parse msg cmd a v hv, typeSwitch_list parse a _ hty]
    unfold Accepted
    by_cases ht : trimmed a v ∈ a.Values
    · have hc : slicesContains a.Values (trimmed a v) = true := (slicesContains_iff _ _).2 ht
      simp [hlen, ht, hc]
    · have hc : ¬ slicesContains a.Values (trimmed a v) = true :=
        fun h => ht ((slicesContains_iff _ _).1 h)
      simp [hlen, ht, hc]
  · intro a t hty
    exact typeSwitch_string_passes parse a t hty
  · intro a t hty
    exact typeSwitch_list_passes parse a t hty
  · intro allowed
    exact single_rule_accepted_iff parse msg cmd allowed
  · intro allowed j a hj hacc
    obtain ⟨_, hl, hall⟩ := (single_rule_accepted_iff parse msg cmd allowed).1 hacc
    have hjlt : j < allowed.Arguments.length := by
      by_contra hc
      rw [List.getElem?_eq_none (by omega)] at hj
      simp at hj
    have hjlt2 : j < msg.ExecArguments.length := by omega
    have hv : msg.ExecArguments[j]? = some msg.ExecArguments[j] :=
      List.getElem?_eq_getElem hjlt2
    refine ⟨_, hv, ?_, ?_⟩
    · intro hty
      exact ((typeSwitch_string_passes parse a _ hty).1).1 (hall j a _ hj hv)
    · intro hty
      exact ((typeSwitch_list_passes parse a _ hty).1).1 (hall j a _ hj hv)
  · intro allowed hkinds
    rw [single_rule_accepted_iff parse msg cmd allowed]
    constructor
    · rintro ⟨hc, hl, hall⟩
      refine ⟨hc, hl, ?_⟩
      intro j a v hj hv
      exact ⟨fun hty => ((typeSwitch_string_passes parse a _ hty).1).1 (hall j a v hj hv),
        fun hty => ((typeSwitch_list_passes parse a _ hty).1).1 (hall j a v hj hv)⟩
    · rintro ⟨hc, hl, hall⟩
      refine ⟨hc, hl, ?_⟩
      intro j a v hj hv
      have hmem : a ∈ allowed.Arguments := List.getElem?_mem hj
      rcases hkinds a hmem with hty | hty
      · exact ((typeSwitch_string_passes parse a _ hty).1).2 ((hall j a v hj hv).1 hty)
      · exact ((typeSwitch_list_passes parse a _ hty).1).2 ((hall j a v hj hv).2 hty)

/-- Witness for C7: a rule with an unset "string" value rejects the empty argument; a "string"
rule for `--goto` accepts `--goto!` after trimming `!`; a "list" rule accepts `b.txt`; and
`editorRule`, accepted for `code --goto "a.txt 10"`, has at its second position, of type
"list", a trimmed value that is an element of `Values`. -/
theorem empty_constraint_never_matches_witness :
    Rejected (validateIncoming ⟨[⟨"code", [{ ArgType := "string" }]⟩]⟩ urlParse
        (execRequest "code" [""]) "code")
    ∧ (Accepted (validateIncoming
          ⟨[⟨"code", [{ ArgType := "string", Value := "--goto", TrimRight := ["!"] }]⟩]⟩
          urlParse (execRequest "code" ["--goto!"]) "code")
        ↔ trimmed { ArgType := "string", Value := "--goto", TrimRight := ["!"] } "--goto!"
            = "--goto")
    ∧ (Accepted (validateIncoming
          ⟨[⟨"code", [{ ArgType := "list", Values := ["a.txt", "b.txt"] }]⟩]⟩
          urlParse (execRequest "code" ["b.txt"]) "code")
        ↔ trimmed { ArgType := "list", Values := ["a.txt", "b.txt"] } "b.txt"
            ∈ ["a.txt", "b.txt"])
    ∧ (typeSwitch urlParse { ArgType := "string", Value := "--goto" } "--GOTO"
          ≠ .continueAllowed
        ↔ ("--goto" : String) ≠ "" ∧ ("--GOTO" : String) = "--goto")
    ∧ (typeSwitch urlParse { ArgType := "list", Values := ["a.txt"] } "a.txt" = .fallOut
        ↔ (["a.txt"] : List String) ≠ [] ∧ "a.txt" ∈ ["a.txt"])
    ∧ (∃ v, (execRequest "code" ["--goto", "a.txt 10"]).ExecArguments[1]? = some v
        ∧ (editorListArg.ArgType = "string" →
            editorListArg.Value ≠ "" ∧ trimmed editorListArg v = editorListArg.Value)
        ∧ (editorListArg.ArgType = "list" →
            editorListArg.Values ≠ [] ∧ trimmed editorListArg v ∈ editorListArg.Values))
    ∧ (Accepted (validateIncoming ⟨[editorRule]⟩ urlParse
          (execRequest "code" ["--goto", "c.txt"]) "code") ↔
        "code" = editorRule.Command
          ∧ (execRequest "code" ["--goto", "c.txt"]).ExecArguments.length
              = editorRule.Arguments.length
          ∧ ∀ (j : Nat) (a : ValidationArg) (v : String), editorRule.Arguments[j]? = some a →
              (execRequest "code" ["--goto", "c.txt"]).ExecArguments[j]? = some v →
              (a.ArgType = "string" → a.Value ≠ "" ∧ trimmed a v = a.Value)
                ∧ (a.ArgType = "list" → a.Values ≠ [] ∧ trimmed a v ∈ a.Values)) :=
  ⟨(empty_constraint_never_matches urlParse (execRequest "code" [""]) "code").1
      ⟨"code", [{ ArgType := "string" }]⟩
      ⟨{ ArgType := "string" }, by simp, Or.inl ⟨rfl, rfl⟩⟩,
    (empty_constraint_never_matches urlParse (execRequest "code" ["--goto!"]) "code").2.1
      { ArgType := "string", Value := "--goto", TrimRight := ["!"] } "--goto!" rfl rfl
      (by decide),
    (empty_constraint_never_matches urlParse (execRequest "code" ["b.txt"]) "code").2.2.1
      { ArgType := "list", Values := ["a.txt", "b.txt"] } "b.txt" rfl rfl (by decide),
    ((empty_constraint_never_matches urlParse (execRequest "code" []) "code").2.2.2.1
      { ArgType := "string", Value := "--goto" } "--GOTO" rfl).1,
    ((empty_constraint_never_matches urlParse (execRequest "code" []) "code").2.2.2.2.1
      { ArgType := "list", Values := ["a.txt"] } "a.txt" rfl).2,
    (empty_constraint_never_matches urlParse (execRequest "code" ["--goto", "a.txt 10"])
      "code").2.2.2.2.2.2.1 editorRule 1 editorListArg rfl (by decide),
    (empty_constraint_never_matches urlParse (execRequest "code" ["--goto", "c.txt"])
      "code").2.2.2.2.2.2.2 editorRule (by decide)⟩

/-- C8: the result for a rule set is the result of the earliest rule that accepts the request
on its own; it is the empty result exactly when every rule on its own gives the empty result;
and the result for `r1 ++ r2` is the result for `r1` when that one is accepted and the result
for `r2` otherwise. -/
theorem first_match_wins (parse : UrlParser) (msg : IncomingMessage) (cmd : String) :
    (∀ (before after : List Validation) (allowed : Validation),
      (∀ earlier ∈ before, Rejected (validateIncoming ⟨[earlier]⟩ parse msg cmd)) →
      Accepted (validateIncoming ⟨[allowed]⟩ parse msg cmd) →
      validateIncoming ⟨before ++ allowed :: after⟩ parse msg cmd
        = validateIncoming ⟨[allowed]⟩ parse msg cmd)
    ∧ (∀ configuration : Configuration,
        Rejected (validateIncoming configuration parse msg cmd) ↔
          ∀ allowed ∈ configuration.Allowed,
            Rejected (validateIncoming ⟨[allowed]⟩ parse msg cmd))
    ∧ (∀ r1 r2 : List Validation,
        (Accepted (validateIncoming ⟨r1⟩ parse msg cmd) →
          validateIncoming ⟨r1 ++ r2⟩ parse msg cmd = validateIncoming ⟨r1⟩ parse msg cmd)
        ∧ (¬ Accepted (validateIncoming ⟨r1⟩ parse msg cmd) →
          validateIncoming ⟨r1 ++ r2⟩ parse msg cmd = validateIncoming ⟨r2⟩ parse msg cmd)) := by
  refine ⟨?_, ?_, ?_⟩
  · intro before after allowed hbefore hacc
    simp only [validateIncoming_eq] at hbefore hacc ⊢
    have hb : allowedLoop parse msg cmd before = .returned [] :=
      (allowedLoop_rejected_iff parse msg cmd before).2 hbefore
    have hnr : ¬ allowedLoop parse msg cmd [allowed] = .returned [] :=
      (accepted_iff_not_rejected parse msg cmd [allowed]).1 hacc
    rw [allowedLoop_append, if_pos hb, allowedLoop_cons, if_neg hnr]
  · intro configuration
    exact allowedLoop_rejected_iff parse msg cmd configuration.Allowed
  · intro r1 r2
    simp only [validateIncoming_eq]
    constructor
    · intro hacc
      have hnr : ¬ allowedLoop parse msg cmd r1 = .returned [] :=
        (accepted_iff_not_rejected parse msg cmd r1).1 hacc
      rw [allowedLoop_append, if_neg hnr]
    · intro hna
      have hr : allowedLoop parse msg cmd r1 = .returned [] := by
        by_contra hc
        exact hna ((accepted_iff_not_rejected parse msg cmd r1).2 hc)
      rw [allowedLoop_append, if_pos hr]

/-- Witness for C8: of the three `printRules` the second is the earliest that accepts
`notepad a.txt`, and its argv is returned although the third rule accepts the request too. -/
theorem first_match_wins_witness :
    validateIncoming ⟨printRules.take 1 ++ printRules.get ⟨1, by decide⟩ :: printRules.drop 2⟩
        urlParse (execRequest "notepad" ["a.txt"]) "notepad"
      = validateIncoming ⟨[printRules.get ⟨1, by decide⟩]⟩ urlParse
          (execRequest "notepad" ["a.txt"]) "notepad"
    ∧ (Rejected (validateIncoming ⟨printRules⟩ urlParse (execRequest "notepad" ["c.txt"])
          "notepad") ↔
        ∀ allowed ∈ printRules,
          Rejected (validateIncoming ⟨[allowed]⟩ urlParse (execRequest "notepad" ["c.txt"])
            "notepad"))
    ∧ validateIncoming ⟨printRules.take 2 ++ printRules.drop 2⟩ urlParse
        (execRequest "notepad" ["a.txt"]) "notepad"
      = validateIncoming ⟨printRules.take 2⟩ urlParse (execRequest "notepad" ["a.txt"])
          "notepad"
    ∧ validateIncoming ⟨printRules.take 2 ++ printRules.drop 2⟩ urlParse
        (execRequest "notepad" ["b.txt"]) "notepad"
      = validateIncoming ⟨printRules.drop 2⟩ urlParse (execRequest "notepad" ["b.txt"])
          "notepad" :=
  ⟨(first_match_wins urlParse (execRequest "notepad" ["a.txt"]) "notepad").1
      (printRules.take 1) (printRules.drop 2) (printRules.get ⟨1, by decide⟩)
      (by decide) (by decide),
    (first_match_wins urlParse (execRequest "notepad" ["c.txt"]) "notepad").2.1 ⟨printRules⟩,
    ((first_match_wins urlParse (execRequest "notepad" ["a.txt"]) "notepad").2.2
      (printRules.take 2) (printRules.drop 2)).1 (by decide),
    ((first_match_wins urlParse (execRequest "notepad" ["b.txt"]) "notepad").2.2
      (printRules.take 2) (printRules.drop 2)).2 (by decide)⟩

/-- C4: a rule that is accepted had, at each position of type "url", a trimmed value that
`url.Parse` parses with the scheme "http" or "https"; a rule with one argument of type "url"
accepts a one-argument request for its command exactly when the trimmed value parses with one
of these two schemes; and with the model `urlParse` of `url.Parse`, `browserRule` accepts
`http://x` and `https://x` and rejects values with the schemes ftp, file, javascript and data,
values without a scheme and values that do not parse. -/
theorem url_scheme_gate (parse : UrlParser) (msg : IncomingMessage) (cmd : String) :
    (∀ (allowed : Validation) (j : Nat) (a : ValidationArg),
      allowed.Arguments[j]? = some a → a.ArgType = "url" →
      Accepted (validateIncoming ⟨[allowed]⟩ parse msg cmd) →
      ∃ v u, msg.ExecArguments[j]? = some v ∧ parse (trimmed a v) = some u
        ∧ (u.Scheme = "http" ∨ u.Scheme = "https"))
    ∧ (∀ (a : ValidationArg) (v : String), msg.ExecArguments = [v] → a.ArgType = "url" →
        (Accepted (validateIncoming ⟨[⟨cmd, [a]⟩]⟩ parse msg cmd) ↔
          ∃ u, parse (trimmed a v) = some u ∧ (u.Scheme = "http" ∨ u.Scheme = "https")))
    ∧ (∀ v ∈ ["http://x", "https://x"],
        validateIncoming ⟨[browserRule]⟩ urlParse (execRequest "firefox" [v]) "firefox"
          = .returned ["firefox", "--new-tab", v])
    ∧ (∀ v ∈ ["ftp://x", "file:///etc/passwd", "javascript:alert(1)", "data:text/html,x",
          "x", "www.example.com/a", "//example.com/a", ":x", "http://[::1", "http://x/%zz",
          "http://a b/"],
        Rejected (validateIncoming ⟨[browserRule]⟩ urlParse (execRequest "firefox" [v])
          "firefox")) := by
  refine ⟨?_, ?_, by decide, by decide⟩
  · intro allowed j a hj hty hacc
    rw [validateIncoming_eq] at hacc
    rcases allowedLoop_single parse msg cmd allowed with h0 | ⟨tail, _, _, _, hloop⟩
    · exact absurd h0 ((accepted_iff_not_rejected parse msg cmd [allowed]).1 hacc)
    · obtain ⟨v, hv, hne⟩ := argumentsLoop_completed_position parse _ _ _ _ _ hloop j a hj
      rw [typeSwitch_url parse a _ hty] at hne
      rw [Nat.zero_add] at hv
      cases hp : parse (trimmed a v) with
      | none => rw [hp] at hne; simp at hne
      | some u =>
        rw [hp] at hne
        refine ⟨v, u, hv, hp, ?_⟩
        by_contra hc
        apply hne
        exact if_pos ⟨fun h => hc (Or.inl h), fun h => hc (Or.inr h)⟩
  · intro a v hv hty
    rw [single_argument_rule parse msg cmd a v hv, typeSwitch_url parse a _ hty]
    unfold Accepted
    cases hp : parse (trimmed a v) with
    | none => simp
    | some u =>
      by_cases hs : u.Scheme = "http" ∨ u.Scheme = "https"
      · have hn : ¬ (u.Scheme ≠ "http" ∧ u.Scheme ≠ "https") := by
          rintro ⟨h1, h2⟩; rcases hs with h | h
          · exact h1 h
          · exact h2 h
        simp [hn, hs]
      · have hn : u.Scheme ≠ "http" ∧ u.Scheme ≠ "https" :=
          ⟨fun h => hs (Or.inl h), fun h => hs (Or.inr h)⟩
        simp [hn, hs]

/-- Witness for C4: `browserRule` accepts `open:https://example.com/a` (the prefix `open:` is
trimmed), so the trimmed value parses with scheme "http" or "https"; and a one-argument "url"
rule accepts `HTTP://x` exactly when it parses with such a scheme. -/
theorem url_scheme_gate_witness :
    (∃ v u, (execRequest "firefox" ["open:https://example.com/a"]).ExecArguments[0]? = some v
        ∧ urlParse (trimmed browserArg v) = some u
        ∧ (u.Scheme = "http" ∨ u.Scheme = "https"))
    ∧ (Accepted (validateIncoming ⟨[⟨"firefox", [{ ArgType := "url" }]⟩]⟩ urlParse
          (execRequest "firefox" ["HTTP://x"]) "firefox") ↔
        ∃ u, urlParse (trimmed { ArgType := "url" } "HTTP://x") = some u
          ∧ (u.Scheme = "http" ∨ u.Scheme = "https")) :=
  ⟨(url_scheme_gate urlParse (execRequest "firefox" ["open:https://example.com/a"])
      "firefox").1 browserRule 0 browserArg rfl rfl (by decide),
    (url_scheme_gate urlParse (execRequest "firefox" ["HTTP://x"]) "firefox").2.1
      { ArgType := "url" } "HTTP://x" rfl rfl⟩

/-! ## Framing: facts about the length prefix and the reader -/

theorem writeMessageLength_length (nativeEndian : ByteOrder) (msg : List Nat) :
    (writeMessageLength nativeEndian msg).length = 4 := by
  cases nativeEndian <;> rfl

theorem readMessageLength_writeMessageLength (nativeEndian : ByteOrder) (msg : List Nat) :
    readMessageLength nativeEndian (writeMessageLength nativeEndian msg)
      = msg.length % 2 ^ 32 := by
  cases nativeEndian <;>
    simp only [writeMessageLength, readMessageLength] <;> omega

theorem copyInto_zeros (len : Nat) (src : List Nat) (h : src.length ≤ len) :
    copyInto (List.replicate len 0) src = src ++ List.replicate (len - src.length) 0 := by
  unfold copyInto
  rw [List.length_replicate, List.take_of_length_le h, List.drop_replicate]

theorem Reader.Read_nil (b : Reader) : b.Read [] = ⟨[], 0, false, b⟩ := by
  simp [Reader.Read]

theorem Reader.Read_buffered (b : Reader) (p : List Nat) (hp : 0 < p.length)
    (hb : b.buf ≠ []) :
    b.Read p = ⟨copyInto p b.buf, min p.length b.buf.length, false,
      ⟨b.buf.drop p.length, b.rd⟩⟩ := by
  unfold Reader.Read
  have h1 : ¬ p.length = 0 := by omega
  have h2 : b.buf.isEmpty = false := by
    cases hbuf : b.buf with
    | nil => exact absurd hbuf hb
    | cons x xs => rfl
  simp [h1, h2]

theorem stdinRead_cons (block : List Nat) (rest : List (List Nat)) (size : Nat) :
    stdinRead (block :: rest) size =
      (block.take size, false,
        if (block.drop size).isEmpty then rest else block.drop size :: rest) := by
  unfold stdinRead
  by_cases h : (block.drop size).isEmpty = true
  · have hle : block.length ≤ size := by
      simpa [List.isEmpty_iff, List.drop_eq_nil_iff] using h
    simp [h, List.take_of_length_le hle]
  · simp [h]

theorem Reader.Read_fresh (block : List Nat) (rest : List (List Nat)) (p : List Nat)
    (hp : 0 < p.length) (hsmall : p.length < bufferSize) (hblock : block ≠ []) :
    Reader.Read ⟨[], block :: rest⟩ p =
      ⟨copyInto p (block.take bufferSize), min p.length (block.take bufferSize).length, false,
        ⟨(block.take bufferSize).drop p.length,
          if (block.drop bufferSize).isEmpty then rest else block.drop bufferSize :: rest⟩⟩ := by
  unfold Reader.Read
  have h1 : ¬ p.length = 0 := by omega
  have h2 : ¬ p.length ≥ bufferSize := by omega
  have h3 : ¬ (block.take bufferSize).length = 0 := by
    rw [List.length_take]
    have : 0 < block.length := List.length_pos.2 hblock
    have hb : 0 < bufferSize := by decide
    omega
  simp only [h1, h2, if_false, List.isEmpty_nil, if_true, stdinRead_cons, h3]

/-- A frame is four bytes longer than its payload. -/
theorem sendBytes_length (nativeEndian : ByteOrder) (payload : List Nat) :
    (sendBytes nativeEndian payload).length = 4 + payload.length := by
  simp [sendBytes, writeMessageLength_length]

theorem Reader.Read_length_prefix (nativeEndian : ByteOrder) (payload : List Nat)
    (rest : List (List Nat)) (lengthBytes : List Nat) (hlb : lengthBytes.length = 4) :
    Reader.Read ⟨[], sendBytes nativeEndian payload :: rest⟩ lengthBytes =
      ⟨writeMessageLength nativeEndian payload, 4, false,
        ⟨payload.take (bufferSize - 4),
          if ((sendBytes nativeEndian payload).drop bufferSize).isEmpty then rest
          else (sendBytes nativeEndian payload).drop bufferSize :: rest⟩⟩ := by
  have hbs : bufferSize = 8192 := rfl
  have hw := writeMessageLength_length nativeEndian payload
  have hne : sendBytes nativeEndian payload ≠ [] := by
    intro h
    have := sendBytes_length nativeEndian payload
    rw [h, List.length_nil] at this
    omega
  rw [Reader.Read_fresh _ rest lengthBytes (by omega) (by omega) hne]
  have htake : ((sendBytes nativeEndian payload).take bufferSize).length
      = min bufferSize (4 + payload.length) := by
    rw [List.length_take, sendBytes_length]
  have hcopy : copyInto lengthBytes ((sendBytes nativeEndian payload).take bufferSize)
      = writeMessageLength nativeEndian payload := by
    unfold copyInto
    rw [List.take_take, hlb, htake, List.drop_of_length_le (by omega), List.append_nil]
    have hmin : min 4 bufferSize = 4 := by omega
    rw [hmin, sendBytes, List.take_left' hw]
  have hdrop : ((sendBytes nativeEndian payload).take bufferSize).drop lengthBytes.length
      = payload.take (bufferSize - 4) := by
    rw [hlb, List.drop_take, sendBytes, List.drop_left' hw]
  have hmin : min lengthBytes.length ((sendBytes nativeEndian payload).take bufferSize).length
      = 4 := by
    rw [htake, hlb]; omega
  rw [hcopy, hdrop, hmin]

theorem Reader.Read_content (payload : List Nat) (rd : List (List Nat)) :
    Reader.Read ⟨payload.take (bufferSize - 4), rd⟩ (List.replicate payload.length 0) =
      ⟨payload.take (bufferSize - 4)
          ++ List.replicate (payload.length - (bufferSize - 4)) 0,
        min payload.length (bufferSize - 4), false, ⟨[], rd⟩⟩ := by
  have hbs : bufferSize = 8192 := rfl
  by_cases hp : payload = []
  · subst hp
    simp [Reader.Read_nil]
  · have hpos : 0 < payload.length := List.length_pos.2 hp
    have hlen : (payload.take (bufferSize - 4)).length
        = min (bufferSize - 4) payload.length := List.length_take _ _
    have hb : payload.take (bufferSize - 4) ≠ [] := by
      intro h
      have hl := congrArg List.length h
      rw [hlen, List.length_nil] at hl
      omega
    rw [Reader.Read_buffered _ _ (by rw [List.length_replicate]; exact hpos) hb]
    have hsub : payload.length - min (bufferSize - 4) payload.length
        = payload.length - (bufferSize - 4) := by omega
    have h1 : copyInto (List.replicate payload.length 0) (payload.take (bufferSize - 4))
        = payload.take (bufferSize - 4)
          ++ List.replicate (payload.length - (bufferSize - 4)) 0 := by
      rw [copyInto_zeros _ _ (by rw [hlen]; omega), hlen, hsub]
    have h2 : (payload.take (bufferSize - 4)).drop (List.replicate payload.length 0).length
        = [] := by
      rw [List.length_replicate, List.drop_of_length_le (by rw [hlen]; omega)]
    have h3 : min (List.replicate payload.length 0).length
        (payload.take (bufferSize - 4)).length = min payload.length (bufferSize - 4) := by
      rw [List.length_replicate, hlen]; omega
    simp only [h1, h2, h3]

/-- One pass of the loop of `read` over a block that starts with the frame of `payload`: the
content handed to `parseMessage` is the part of the payload that was buffered together with
the length, filled up with zero bytes. -/
theorem readLoop_frame (nativeEndian : ByteOrder) (returns : List Nat → Bool) (fuel : Nat)
    (lengthBytes payload : List Nat) (rest : List (List Nat))
    (hlb : lengthBytes.length = 4) (hlen : payload.length < 2 ^ 32) :
    readLoop nativeEndian returns (fuel + 1) lengthBytes
        ⟨[], sendBytes nativeEndian payload :: rest⟩ =
      if returns (payload.take (bufferSize - 4)
          ++ List.replicate (payload.length - (bufferSize - 4)) 0) = true then
        ⟨(payload.take (bufferSize - 4)
            ++ List.replicate (payload.length - (bufferSize - 4)) 0)
          :: (readLoop nativeEndian returns fuel (writeMessageLength nativeEndian payload)
              ⟨[], if ((sendBytes nativeEndian payload).drop bufferSize).isEmpty then rest
                else (sendBytes nativeEndian payload).drop bufferSize :: rest⟩).handed,
          (readLoop nativeEndian returns fuel (writeMessageLength nativeEndian payload)
              ⟨[], if ((sendBytes nativeEndian payload).drop bufferSize).isEmpty then rest
                else (sendBytes nativeEndian payload).drop bufferSize :: rest⟩).exit⟩
      else
        ⟨[payload.take (bufferSize - 4)
            ++ List.replicate (payload.length - (bufferSize - 4)) 0], .crashed⟩ := by
  rw [readLoop]
  simp only [Reader.Read_length_prefix nativeEndian payload rest lengthBytes hlb,
    readMessageLength_writeMessageLength, Nat.mod_eq_of_lt hlen, Reader.Read_content]
  simp

theorem Reader.Read_at_end (lengthBytes : List Nat) (hlb : lengthBytes.length = 4) :
    Reader.Read ⟨[], []⟩ lengthBytes = ⟨lengthBytes, 0, true, ⟨[], []⟩⟩ := by
  have hbs : bufferSize = 8192 := rfl
  unfold Reader.Read
  have h1 : ¬ lengthBytes.length = 0 := by omega
  have h2 : ¬ lengthBytes.length ≥ bufferSize := by omega
  simp [h1, h2, stdinRead]

/-! ## Framing: the loop of `read` ends -/

theorem stdinRead_remaining (rd : List (List Nat)) (size : Nat) :
    (stdinRead rd size).1.length + ((stdinRead rd size).2.2.map List.length).sum
      = (rd.map List.length).sum := by
  cases rd with
  | nil => simp [stdinRead]
  | cons block rest =>
    rw [stdinRead_cons]
    by_cases h : (block.drop size).isEmpty = true
    · have hle : block.length ≤ size := by
        simpa [List.isEmpty_iff, List.drop_eq_nil_iff] using h
      simp only [h, if_true, List.length_take, List.map_cons, List.sum_cons]
      omega
    · simp only [h, List.length_take, List.map_cons, List.sum_cons, List.length_drop]
      simp only [Bool.false_eq_true, if_false, List.map_cons, List.sum_cons, List.length_drop]
      omega

/-- A `Read` never delivers more bytes than the reader had left. -/
theorem Reader.Read_remaining (b : Reader) (p : List Nat) :
    (b.Read p).reader.remaining + (b.Read p).n ≤ b.remaining := by
  unfold Reader.Read
  by_cases h1 : p.length = 0
  · simp [h1]
  · rw [if_neg h1]
    by_cases h2 : b.buf.isEmpty = true
    · rw [if_pos h2]
      have hbuf : b.buf = [] := by simpa [List.isEmpty_iff] using h2
      by_cases h3 : p.length ≥ bufferSize
      · rw [if_pos h3]
        have := stdinRead_remaining b.rd p.length
        simp only [Reader.remaining, hbuf, List.length_nil]
        omega
      · rw [if_neg h3]
        have := stdinRead_remaining b.rd bufferSize
        by_cases h4 : (stdinRead b.rd bufferSize).1.length = 0
        · simp only [h4, if_true, Reader.remaining, hbuf, List.length_nil]
          omega
        · simp only [h4, if_false, Reader.remaining, hbuf, List.length_nil, List.length_drop]
          omega
    · rw [if_neg h2]
      simp only [Reader.remaining, List.length_drop]
      omega

/-- With more fuel than bytes left, the loop of `read` ends by itself. -/
theorem readLoop_exit (nativeEndian : ByteOrder) (returns : List Nat → Bool) :
    ∀ (fuel : Nat) (lengthBytes : List Nat) (s : Reader), s.remaining < fuel →
      (readLoop nativeEndian returns fuel lengthBytes s).exit ≠ .outOfFuel := by
  intro fuel
  induction fuel with
  | zero => intro lengthBytes s h; simp at h
  | succ fuel ih =>
    intro lengthBytes s h
    rw [readLoop]
    by_cases hc : (s.Read lengthBytes).n > 0 ∧ (s.Read lengthBytes).eof = false
    · simp only [hc, and_self, if_true]
      have hr1 := Reader.Read_remaining s lengthBytes
      have hr2 := Reader.Read_remaining (s.Read lengthBytes).reader
        (List.replicate (readMessageLength nativeEndian (s.Read lengthBytes).p) 0)
      split
      · exact ih _ _ (by omega)
      · simp
    · simp only [hc, if_false]
      simp

/-- The function `read` never stops for lack of fuel: it ends because standard input is closed
or because `parseMessage` panicked. -/
theorem read_exit (nativeEndian : ByteOrder) (returns : List Nat → Bool)
    (stdin : List (List Nat)) :
    (read nativeEndian returns stdin).exit ≠ .outOfFuel :=
  readLoop_exit nativeEndian returns _ _ _ (Nat.lt_succ_self _)

/-! ## Framing: frames that are buffered whole -/

theorem framesOf_cons (nativeEndian : ByteOrder) (payload : List Nat)
    (payloads : List (List Nat)) :
    framesOf nativeEndian (payload :: payloads)
      = sendBytes nativeEndian payload ++ framesOf nativeEndian payloads := by
  simp [framesOf]

theorem framesOf_length (nativeEndian : ByteOrder) (payloads : List (List Nat)) :
    ∀ p ∈ payloads, 4 + p.length ≤ (framesOf nativeEndian payloads).length := by
  induction payloads with
  | nil => intro p hp; simp at hp
  | cons q rest ih =>
    intro p hp
    rw [framesOf_cons, List.length_append, sendBytes_length]
    rcases List.mem_cons.1 hp with h | h
    · subst h; omega
    · have := ih p h; omega

theorem framesOf_count (nativeEndian : ByteOrder) (payloads : List (List Nat)) :
    payloads.length ≤ (framesOf nativeEndian payloads).length := by
  induction payloads with
  | nil => simp
  | cons q rest ih =>
    rw [framesOf_cons, List.length_append, sendBytes_length, List.length_cons]
    omega

/-- Reading the length from a buffer that starts with a frame. -/
theorem Reader.Read_length_buffered (nativeEndian : ByteOrder) (payload more : List Nat)
    (rd : List (List Nat)) (lengthBytes : List Nat) (hlb : lengthBytes.length = 4) :
    Reader.Read ⟨sendBytes nativeEndian payload ++ more, rd⟩ lengthBytes =
      ⟨writeMessageLength nativeEndian payload, 4, false, ⟨payload ++ more, rd⟩⟩ := by
  have hw := writeMessageLength_length nativeEndian payload
  have hne : sendBytes nativeEndian payload ++ more ≠ [] := by
    intro h
    have hl := congrArg List.length h
    rw [List.length_append, sendBytes_length, List.length_nil] at hl
    omega
  rw [Reader.Read_buffered _ _ (by show 0 < lengthBytes.length; omega) hne]
  have hbuf : sendBytes nativeEndian payload ++ more
      = writeMessageLength nativeEndian payload ++ (payload ++ more) := by
    rw [sendBytes, List.append_assoc]
  have hlen : (sendBytes nativeEndian payload ++ more).length
      = 4 + payload.length + more.length := by
    rw [List.length_append, sendBytes_length]
  have hcopy : copyInto lengthBytes (sendBytes nativeEndian payload ++ more)
      = writeMessageLength nativeEndian payload := by
    unfold copyInto
    rw [hlen, List.drop_of_length_le (by omega), List.append_nil, hlb, hbuf,
      List.take_left' hw]
  have hdrop : (sendBytes nativeEndian payload ++ more).drop lengthBytes.length
      = payload ++ more := by
    rw [hlb, hbuf, List.drop_left' hw]
  have hmin : min lengthBytes.length (sendBytes nativeEndian payload ++ more).length = 4 := by
    rw [hlen, hlb]; omega
  simp only [hcopy, hdrop, hmin]

/-- Reading the content from a buffer that starts with the whole payload. -/
theorem Reader.Read_content_buffered (payload more : List Nat) (rd : List (List Nat)) :
    Reader.Read ⟨payload ++ more, rd⟩ (List.replicate payload.length 0) =
      ⟨payload, payload.length, false, ⟨more, rd⟩⟩ := by
  by_cases hp : payload = []
  · subst hp
    simp [Reader.Read_nil]
  · have hpos : 0 < payload.length := List.length_pos.2 hp
    have hne : payload ++ more ≠ [] := by
      intro h
      exact hp (List.append_eq_nil.1 h).1
    rw [Reader.Read_buffered _ _ (by rw [List.length_replicate]; exact hpos) hne]
    have hcopy : copyInto (List.replicate payload.length 0) (payload ++ more) = payload := by
      unfold copyInto
      rw [List.length_replicate, List.take_left' rfl, List.drop_replicate, List.length_append]
      have h0 : payload.length - (payload.length + more.length) = 0 := by omega
      rw [h0, List.replicate_zero, List.append_nil]
    have hdrop : (payload ++ more).drop (List.replicate payload.length 0).length = more := by
      rw [List.length_replicate, List.drop_left' rfl]
    have hmin : min (List.replicate payload.length 0).length (payload ++ more).length
        = payload.length := by
      rw [List.length_replicate, List.length_append]; omega
    simp only [hcopy, hdrop, hmin]

/-- One pass of the loop of `read` over a buffer that starts with a whole frame: the payload
is handed to `parseMessage` and the rest of the buffer stays. -/
theorem readLoop_buffered_frame (nativeEndian : ByteOrder) (returns : List Nat → Bool)
    (fuel : Nat) (lengthBytes payload more : List Nat) (rd : List (List Nat))
    (hlb : lengthBytes.length = 4) (hlen : payload.length < 2 ^ 32) :
    readLoop nativeEndian returns (fuel + 1) lengthBytes
        ⟨sendBytes nativeEndian payload ++ more, rd⟩ =
      if returns payload = true then
        ⟨payload :: (readLoop nativeEndian returns fuel
            (writeMessageLength nativeEndian payload) ⟨more, rd⟩).handed,
          (readLoop nativeEndian returns fuel
            (writeMessageLength nativeEndian payload) ⟨more, rd⟩).exit⟩
      else ⟨[payload], .crashed⟩ := by
  rw [readLoop]
  simp only [Reader.Read_length_buffered nativeEndian payload more rd lengthBytes hlb,
    readMessageLength_writeMessageLength, Nat.mod_eq_of_lt hlen, Reader.Read_content_buffered]
  simp

/-- A read into a slice shorter than the buffer, with the buffer empty, first fills the buffer
with what one read of standard input delivers, at most `bufferSize` bytes. -/
theorem Reader.Read_fill (block : List Nat) (rd : List (List Nat)) (p : List Nat)
    (hp : 0 < p.length) (hsmall : p.length < bufferSize) (hblock : block ≠ []) :
    Reader.Read ⟨[], block :: rd⟩ p =
      Reader.Read ⟨block.take bufferSize,
        if (block.drop bufferSize).isEmpty then rd else block.drop bufferSize :: rd⟩ p := by
  have hbs : bufferSize = 8192 := rfl
  have hne : block.take bufferSize ≠ [] := by
    intro h
    have hl := congrArg List.length h
    have hpos : 0 < block.length := List.length_pos.2 hblock
    rw [List.length_take, List.length_nil] at hl
    omega
  rw [Reader.Read_fresh block rd p hp hsmall hblock, Reader.Read_buffered _ p hp hne]

theorem readLoop_fill (nativeEndian : ByteOrder) (returns : List Nat → Bool) (fuel : Nat)
    (lengthBytes block : List Nat) (rd : List (List Nat)) (hlb : lengthBytes.length = 4)
    (hblock : block ≠ []) :
    readLoop nativeEndian returns (fuel + 1) lengthBytes ⟨[], block :: rd⟩ =
      readLoop nativeEndian returns (fuel + 1) lengthBytes
        ⟨block.take bufferSize,
          if (block.drop bufferSize).isEmpty then rd else block.drop bufferSize :: rd⟩ := by
  have hbs : bufferSize = 8192 := rfl
  have hfill := Reader.Read_fill block rd lengthBytes (by omega) (by omega) hblock
  rw [readLoop, readLoop, hfill]

/-- The frames in the buffer are handed over one by one; then the loop goes on with the empty
buffer. -/
theorem readLoop_buffered_frames (nativeEndian : ByteOrder) (returns : List Nat → Bool)
    (rd : List (List Nat)) (after : ReadRun) :
    ∀ (payloads : List (List Nat)) (fuel : Nat) (lengthBytes : List Nat),
      lengthBytes.length = 4 →
      (∀ p ∈ payloads, p.length < 2 ^ 32 ∧ returns p = true) →
      (∀ lb : List Nat, lb.length = 4 →
        readLoop nativeEndian returns fuel lb ⟨[], rd⟩ = after) →
      readLoop nativeEndian returns (fuel + payloads.length) lengthBytes
        ⟨framesOf nativeEndian payloads, rd⟩ = ⟨payloads ++ after.handed, after.exit⟩ := by
  intro payloads
  induction payloads with
  | nil =>
    intro fuel lengthBytes hlb _ hafter
    have h := hafter lengthBytes hlb
    simp only [framesOf, List.map_nil, List.flatten_nil, List.length_nil, Nat.add_zero,
      List.nil_append]
    rw [h]
  | cons payload rest ih =>
    intro fuel lengthBytes hlb hall hafter
    obtain ⟨hlen, hret⟩ := hall payload (List.mem_cons_self _ _)
    have hfuel : fuel + (payload :: rest).length = (fuel + rest.length) + 1 := by
      rw [List.length_cons]; omega
    rw [hfuel, framesOf_cons,
      readLoop_buffered_frame nativeEndian returns _ lengthBytes payload _ rd hlb hlen,
      if_pos hret,
      ih fuel _ (writeMessageLength_length nativeEndian payload)
        (fun p hp => hall p (List.mem_cons_of_mem _ hp)) hafter]
    rfl

/-- Blocks of whole frames, none longer than the buffer, are handed over payload by payload
until standard input ends. -/
theorem readLoop_blocks (nativeEndian : ByteOrder) (returns : List Nat → Bool) :
    ∀ (blocks : List (List (List Nat))) (fuel : Nat) (lengthBytes : List Nat),
      lengthBytes.length = 4 → blocks.flatten.length < fuel →
      (∀ block ∈ blocks, block ≠ [] ∧ (framesOf nativeEndian block).length ≤ bufferSize
        ∧ ∀ p ∈ block, returns p = true) →
      readLoop nativeEndian returns fuel lengthBytes
        ⟨[], blocks.map (framesOf nativeEndian)⟩ = ⟨blocks.flatten, .stdinClosed⟩ := by
  have hbs : bufferSize = 8192 := rfl
  intro blocks
  induction blocks with
  | nil =>
    intro fuel lengthBytes hlb hfuel _
    cases fuel with
    | zero => simp at hfuel
    | succ fuel =>
      rw [List.map_nil, readLoop, Reader.Read_at_end lengthBytes hlb]
      simp
  | cons block rest ih =>
    intro fuel lengthBytes hlb hfuel hall
    obtain ⟨hne, hfit, hret⟩ := hall block (List.mem_cons_self _ _)
    have hpos : 0 < block.length := List.length_pos.2 hne
    rw [List.flatten_cons, List.length_append] at hfuel
    obtain ⟨fuel2, hf2⟩ : ∃ fuel2, fuel = fuel2 + block.length := ⟨fuel - block.length, by omega⟩
    obtain ⟨fuel3, hf3⟩ : ∃ fuel3, fuel = fuel3 + 1 := ⟨fuel - 1, by omega⟩
    have hbne : framesOf nativeEndian block ≠ [] := by
      intro h
      have hc := framesOf_count nativeEndian block
      rw [h, List.length_nil] at hc
      omega
    have htake : (framesOf nativeEndian block).take bufferSize = framesOf nativeEndian block :=
      List.take_of_length_le hfit
    have hdrop : (framesOf nativeEndian block).drop bufferSize = [] :=
      List.drop_of_length_le hfit
    have hlens : ∀ p ∈ block, p.length < 2 ^ 32 ∧ returns p = true := by
      intro p hp
      have h1 := framesOf_length nativeEndian block p hp
      have h2 : (8192 : Nat) < 2 ^ 32 := by decide
      exact ⟨by omega, hret p hp⟩
    have hafter : ∀ lb : List Nat, lb.length = 4 →
        readLoop nativeEndian returns fuel2 lb ⟨[], rest.map (framesOf nativeEndian)⟩
          = ⟨rest.flatten, .stdinClosed⟩ :=
      fun lb hlb2 => ih fuel2 lb hlb2 (by omega)
        (fun b hb => hall b (List.mem_cons_of_mem _ hb))
    rw [List.map_cons, hf3,
      readLoop_fill nativeEndian returns fuel3 lengthBytes _ _ hlb hbne, htake, hdrop, ← hf3, hf2,
      List.flatten_cons]
    exact readLoop_buffered_frames nativeEndian returns _ _ block fuel2 lengthBytes hlb hlens
      hafter

theorem blocks_remaining (nativeEndian : ByteOrder) (blocks : List (List (List Nat))) :
    blocks.flatten.length ≤ ((blocks.map (framesOf nativeEndian)).map List.length).sum := by
  induction blocks with
  | nil => simp
  | cons block rest ih =>
    have := framesOf_count nativeEndian block
    simp only [List.flatten_cons, List.length_append, List.map_cons, List.sum_cons]
    omega

/-- The first frame of a block is handed over whole when it fits into the buffer together with
its length, whatever follows it. -/
theorem read_first_frame (nativeEndian : ByteOrder) (returns : List Nat → Bool)
    (payload more : List Nat) (rest : List (List Nat))
    (hfit : 4 + payload.length ≤ bufferSize) :
    (read nativeEndian returns ((sendBytes nativeEndian payload ++ more) :: rest)).handed.head?
      = some payload := by
  have hbs : bufferSize = 8192 := rfl
  have hlen : payload.length < 2 ^ 32 := by
    have : (8192 : Nat) < 2 ^ 32 := by decide
    omega
  have hne : sendBytes nativeEndian payload ++ more ≠ [] := by
    intro h
    have hl := congrArg List.length h
    rw [List.length_append, sendBytes_length, List.length_nil] at hl
    omega
  have htake : (sendBytes nativeEndian payload ++ more).take bufferSize
      = sendBytes nativeEndian payload ++ more.take (bufferSize - (4 + payload.length)) := by
    rw [List.take_append_eq_append_take, sendBytes_length,
      List.take_of_length_le (by rw [sendBytes_length]; exact hfit)]
  rw [read, readLoop_fill nativeEndian returns _ [0, 0, 0, 0] _ rest rfl hne, htake,
    readLoop_buffered_frame nativeEndian returns _ [0, 0, 0, 0] payload _ _ rfl hlen]
  by_cases hr : returns payload = true
  · rw [if_pos hr]; rfl
  · rw [if_neg hr]; rfl

/-! ## Framing: what the loop does with frames that are not buffered whole -/

/-- A payload of 8189 bytes is not longer than `bufferSize`, the test `lengthNum > bufferSize`
does not hold and no error is logged, but the buffer took the 4 length bytes and 8188 payload
bytes only: the content ends in a zero byte. -/
theorem payload_of_8189_bytes_loses_a_byte :
    (read .littleEndian (fun _ => true)
        [sendBytes .littleEndian (List.replicate 8189 1)]).handed.head?
      = some (List.replicate 8188 1 ++ [0]) := by
  rw [read, readLoop_frame .littleEndian (fun _ => true) _ [0, 0, 0, 0]
    (List.replicate 8189 1) [] rfl (by rw [List.length_replicate]; decide)]
  have h1 : (8189 : Nat) - (bufferSize - 4) = 1 := by decide
  have h2 : min (bufferSize - 4) 8189 = 8188 := by decide
  simp only [if_true, List.head?_cons, List.take_replicate, List.length_replicate, h1, h2]
  rfl

/-- A frame that arrives in two blocks is not put together: the content is cut where the first
block ends, and the second block is taken for a length. -/
theorem split_frame_is_not_joined :
    sendBytes .littleEndian [7, 8] = [2, 0, 0, 0, 7] ++ [8]
    ∧ read .littleEndian (fun _ => true) [[2, 0, 0, 0, 7], [8]]
      = ⟨[[7, 0], [0, 0, 0, 0, 0, 0, 0, 0]], .stdinClosed⟩ := by
  refine ⟨by decide, by decide⟩

/-- A payload of 9000 bytes that arrives in a block of its own, after its length, is read
straight into the content slice and handed over whole. -/
theorem long_payload_in_its_own_block (nativeEndian : ByteOrder) (returns : List Nat → Bool)
    (payload : List Nat) (rest : List (List Nat)) (hlong : bufferSize ≤ payload.length)
    (hlen : payload.length < 2 ^ 32) :
    (read nativeEndian returns
        (writeMessageLength nativeEndian payload :: payload :: rest)).handed.head?
      = some payload := by
  have hbs : bufferSize = 8192 := rfl
  have hw := writeMessageLength_length nativeEndian payload
  have hne : writeMessageLength nativeEndian payload ≠ [] := by
    intro h; rw [h, List.length_nil] at hw; omega
  have h1 : Reader.Read ⟨[], writeMessageLength nativeEndian payload :: payload :: rest⟩
      [0, 0, 0, 0]
      = ⟨writeMessageLength nativeEndian payload, 4, false, ⟨[], payload :: rest⟩⟩ := by
    rw [Reader.Read_fresh _ _ _ (by decide) (by decide) hne]
    have ht : (writeMessageLength nativeEndian payload).take bufferSize
        = writeMessageLength nativeEndian payload := List.take_of_length_le (by omega)
    have hd : (writeMessageLength nativeEndian payload).drop bufferSize = [] :=
      List.drop_of_length_le (by omega)
    rw [ht, hd]
    have hc : copyInto [0, 0, 0, 0] (writeMessageLength nativeEndian payload)
        = writeMessageLength nativeEndian payload := by
      unfold copyInto
      rw [hw, List.take_of_length_le (by rw [hw]; decide)]
      simp
    have hdr : (writeMessageLength nativeEndian payload).drop ([0, 0, 0, 0] : List Nat).length
        = [] := List.drop_of_length_le (by rw [hw]; decide)
    have hm : min ([0, 0, 0, 0] : List Nat).length
        (writeMessageLength nativeEndian payload).length = 4 := by rw [hw]; decide
    simp only [hc, hdr, hm]
    rfl
  have h2 : Reader.Read ⟨[], payload :: rest⟩ (List.replicate payload.length 0)
      = ⟨payload, payload.length, false, ⟨[], rest⟩⟩ := by
    unfold Reader.Read
    have hp0 : ¬ (List.replicate payload.length 0).length = 0 := by
      rw [List.length_replicate]; omega
    have hge : (List.replicate payload.length 0).length ≥ bufferSize := by
      rw [List.length_replicate]; exact hlong
    rw [if_neg hp0]
    simp only [List.isEmpty_nil, if_true, hge, stdinRead_cons, List.length_replicate]
    have ht : payload.take payload.length = payload := List.take_of_length_le (le_refl _)
    have hd : payload.drop payload.length = [] := List.drop_of_length_le (le_refl _)
    have hc : copyInto (List.replicate payload.length 0) payload = payload := by
      unfold copyInto
      rw [List.length_replicate, ht, List.drop_replicate, Nat.sub_self, List.replicate_zero,
        List.append_nil]
    simp only [ht, hd, hc, List.isEmpty_nil, if_true]
    rw [if_pos hlong]
  rw [read, readLoop]
  simp only [h1, readMessageLength_writeMessageLength, Nat.mod_eq_of_lt hlen, h2]
  by_cases hr : returns payload = true
  · simp [hr]
  · simp [hr]

/-! ## Framing: the claims -/

/-- C9, as stated, fails: the payload of 9000 bytes of value 1 has a length that fits in 32
bits and exceeds `bufferSize`, the case of which the comment in `read` says that the message
will be truncated.  From its frame, delivered whole by one read of standard input, the buffer
takes the 4 length bytes and 8188 payload bytes; the loop hands these 8188 bytes followed by
812 zero bytes to `parseMessage`. -/
theorem payload_beyond_buffer_is_truncated :
    (List.replicate 9000 1).length < 2 ^ 32
    ∧ bufferSize < (List.replicate 9000 1).length
    ∧ (read .littleEndian (fun _ => true)
        [sendBytes .littleEndian (List.replicate 9000 1)]).handed.head?
      = some (List.replicate 8188 1 ++ List.replicate 812 0)
    ∧ List.replicate 8188 1 ++ List.replicate 812 0 ≠ List.replicate 9000 1 := by
  refine ⟨?_, ?_, ?_, ?_⟩
  · rw [List.length_replicate]; decide
  · rw [List.length_replicate]; decide
  · rw [read, readLoop_frame .littleEndian (fun _ => true) _ [0, 0, 0, 0]
      (List.replicate 9000 1) [] rfl (by rw [List.length_replicate]; decide)]
    have h1 : (9000 : Nat) - (bufferSize - 4) = 812 := by decide
    have h2 : min (bufferSize - 4) 9000 = 8188 := by decide
    simp only [if_true, List.head?_cons, List.take_replicate, List.length_replicate, h1, h2]
  · intro h
    have hm : (0 : Nat) ∈ List.replicate 8188 1 ++ List.replicate 812 0 := by
      rw [List.mem_append]; right
      rw [List.mem_replicate]; exact ⟨by decide, rfl⟩
    rw [h, List.mem_replicate] at hm
    exact absurd hm.2 (by decide)

/-- C9, amended: the length written by `writeMessageLength` is read back by
`readMessageLength` for every payload whose length fits in 32 bits.  When a read of standard
input delivers a block that starts with the frame of a payload, and the frame is not longer
than `bufferSize`, the loop hands exactly the payload to `parseMessage`, whatever follows the
frame.  When every read of standard input delivers a block of one or more whole frames that is
not longer than `bufferSize`, the loop hands over all payloads, in order, and ends when
standard input is closed.  When a read delivers the whole frame of a payload that is longer
than `bufferSize`, the loop hands over the first `bufferSize - 4` bytes of the payload,
filled up with zero bytes to the length of the payload. -/
theorem framing_round_trip (nativeEndian : ByteOrder) (returns : List Nat → Bool) :
    (∀ payload : List Nat, payload.length < 2 ^ 32 →
      readMessageLength nativeEndian (writeMessageLength nativeEndian payload)
        = payload.length)
    ∧ (∀ (payload more : List Nat) (rest : List (List Nat)),
        (sendBytes nativeEndian payload).length ≤ bufferSize →
        (read nativeEndian returns
            ((sendBytes nativeEndian payload ++ more) :: rest)).handed.head?
          = some payload)
    ∧ (∀ blocks : List (List (List Nat)),
        (∀ block ∈ blocks, block ≠ [] ∧ (framesOf nativeEndian block).length ≤ bufferSize
          ∧ ∀ p ∈ block, returns p = true) →
        read nativeEndian returns (blocks.map (framesOf nativeEndian))
          = ⟨blocks.flatten, .stdinClosed⟩)
    ∧ (∀ (payload : List Nat) (rest : List (List Nat)),
        bufferSize < payload.length → payload.length < 2 ^ 32 →
        (read nativeEndian returns (sendBytes nativeEndian payload :: rest)).handed.head?
          = some (payload.take (bufferSize - 4)
              ++ List.replicate (payload.length - (bufferSize - 4)) 0)) := by
  refine ⟨?_, ?_, ?_, ?_⟩
  · intro payload hlen
    rw [readMessageLength_writeMessageLength, Nat.mod_eq_of_lt hlen]
  · intro payload more rest hfit
    rw [sendBytes_length] at hfit
    exact read_first_frame nativeEndian returns payload more rest hfit
  · intro blocks hall
    rw [read]
    exact readLoop_blocks nativeEndian returns blocks _ _ rfl
      (by
        have := blocks_remaining nativeEndian blocks
        simp only [Reader.remaining, List.length_nil, Nat.zero_add]
        omega)
      hall
  · intro payload rest _ hlen
    rw [read, readLoop_frame nativeEndian returns _ [0, 0, 0, 0] payload rest rfl hlen]
    by_cases hr : returns (payload.take (bufferSize - 4)
        ++ List.replicate (payload.length - (bufferSize - 4)) 0) = true
    · rw [if_pos hr]; rfl
    · rw [if_neg hr]; rfl

/-- Witness for C9: a frame followed by other bytes in its block; three blocks, the first with
two frames; and a payload of 8200 bytes delivered with its length by one read. -/
theorem framing_round_trip_witness :
    readMessageLength .bigEndian (writeMessageLength .bigEndian [7, 8, 9]) = [7, 8, 9].length
    ∧ (read .bigEndian (fun _ => true)
        ((sendBytes .bigEndian [7, 8, 9] ++ [0, 0]) :: [[0, 0, 0, 1], [5]])).handed.head?
      = some [7, 8, 9]
    ∧ read .bigEndian (fun _ => true)
        ([[[7, 8, 9], []], [[1]], [[2, 3]]].map (framesOf .bigEndian))
      = ⟨[[[7, 8, 9], []], [[1]], [[2, 3]]].flatten, .stdinClosed⟩
    ∧ (read .bigEndian (fun _ => true)
        (sendBytes .bigEndian (List.replicate 8200 1) :: [])).handed.head?
      = some ((List.replicate 8200 1).take (bufferSize - 4)
          ++ List.replicate ((List.replicate 8200 1).length - (bufferSize - 4)) 0) :=
  ⟨(framing_round_trip .bigEndian (fun _ => true)).1 [7, 8, 9] (by decide),
    (framing_round_trip .bigEndian (fun _ => true)).2.1 [7, 8, 9] [0, 0] [[0, 0, 0, 1], [5]]
      (by decide),
    (framing_round_trip .bigEndian (fun _ => true)).2.2.1 [[[7, 8, 9], []], [[1]], [[2, 3]]]
      (by decide),
    (framing_round_trip .bigEndian (fun _ => true)).2.2.2 (List.replicate 8200 1) []
      (by rw [List.length_replicate]; decide) (by rw [List.length_replicate]; decide)⟩

/-- C10, evaluated on the code: the claim says that 1, 2 or 3 remaining bytes in the place of
a length end the loop without a length being computed and without a call of `parseMessage`.
The loop condition is `b > 0 && err == nil`, and the first `Read` returns `b = 1` and no error
for the input `[1]`, so the body runs: the length 1 is computed from the partly filled
`lengthBytes` and a content of one zero byte is handed to `parseMessage`.  After a complete
frame the three bytes `[3, 0, 0]` give a call with three zero bytes, and the two bytes
`[0, 0]` give a call with the empty content. -/
theorem short_length_prefix_is_processed :
    ((Reader.Read ⟨[], [[1]]⟩ [0, 0, 0, 0]).p = [1, 0, 0, 0]
      ∧ (Reader.Read ⟨[], [[1]]⟩ [0, 0, 0, 0]).n = 1
      ∧ (Reader.Read ⟨[], [[1]]⟩ [0, 0, 0, 0]).eof = false)
    ∧ read .littleEndian (fun _ => true) [[1]] = ⟨[[0]], .stdinClosed⟩
    ∧ read .littleEndian (fun _ => true) [[2, 0, 0, 0, 7, 8, 3, 0, 0]]
        = ⟨[[7, 8], [0, 0, 0]], .stdinClosed⟩
    ∧ read .littleEndian (fun _ => true) [[0, 0]] = ⟨[[]], .stdinClosed⟩
    ∧ read .bigEndian (fun _ => true) [[0, 0]] = ⟨[[]], .stdinClosed⟩ := by
  refine ⟨by decide, by decide, by decide, by decide, by decide⟩

/-! ## Dispatch: the claims -/

/-- The `exec` branch panics whenever the command field is not a string. -/
theorem execBranch_not_string (os : OS) (configuration : Configuration) (parse : UrlParser)
    (iMsg : IncomingMessage) (h : ∀ s, iMsg.ExecCommand ≠ .str s) :
    execBranch os configuration parse iMsg = none := by
  unfold execBranch
  cases hc : iMsg.ExecCommand with
  | str s => exact absurd hc (h s)
  | nil => rfl
  | bool b => rfl
  | float64 t => rfl
  | slice e => rfl
  | map e => rfl

/-- A string command that the validator rejects is answered with the rejection of code 1000
and no program is run. -/
theorem exec_rejected (os : OS) (configuration : Configuration) (parse : UrlParser)
    (iMsg : IncomingMessage) (cmd : String) (hcmd : iMsg.Command = "exec")
    (hstr : iMsg.ExecCommand = .str cmd)
    (hrej : Rejected (validateIncoming configuration parse iMsg cmd)) :
    parseDecoded os configuration parse iMsg
      = some [.send (.OutErrorMessage "Usafe exec detected, ignored" "" 1000)] := by
  have hv : ("exec" : String) ≠ "version" := by decide
  unfold parseDecoded
  rw [hcmd, if_neg hv, if_pos rfl]
  unfold execBranch
  unfold Rejected at hrej
  rw [hstr]
  simp only [hrej]
  simp

/-- A string command that the validator accepts runs the program `argv[0]` with the arguments
`argv[1:]`. -/
theorem exec_accepted (os : OS) (configuration : Configuration) (parse : UrlParser)
    (iMsg : IncomingMessage) (cmd name : String) (args : List String)
    (hcmd : iMsg.Command = "exec") (hstr : iMsg.ExecCommand = .str cmd)
    (hacc : validateIncoming configuration parse iMsg cmd = .returned (name :: args)) :
    ∃ response, parseDecoded os configuration parse iMsg
      = some [.exec name args, .send response] := by
  have hv : ("exec" : String) ≠ "version" := by decide
  unfold parseDecoded
  rw [hcmd, if_neg hv, if_pos rfl]
  unfold execBranch
  rw [hstr]
  simp only [hacc]
  by_cases hf : (os.Output name args).failed = true
  · simp [hf]
  · simp [hf]

/-- C2, evaluated on the code: the claim says that an `exec` request whose command field is
absent or not a string is answered with the rejection of code 1000 and that `parseMessage`
returns normally.  The argument `iMsg.ExecCommand.(string)` of the call of `validateIncoming`
is a type assertion with one result, which panics for every other dynamic type, so
`parseMessage` panics (the result `none`) before anything is sent: for an absent or null
command, a number, a boolean, an array and an object. -/
theorem exec_without_string_command_panics (os : OS) (configuration : Configuration)
    (parse : UrlParser) (decodeMessage : List Nat → IncomingMessage) (msg : List Nat) :
    parseDecoded os configuration parse { Command := "exec" } = none
    ∧ parseDecoded os configuration parse
        { Command := "exec", ExecCommand := .float64 "5", ExecArguments := ["a.txt"] } = none
    ∧ parseDecoded os configuration parse
        { Command := "exec", ExecCommand := .bool true } = none
    ∧ parseDecoded os configuration parse
        { Command := "exec", ExecCommand := .slice [.str "notepad"] } = none
    ∧ parseDecoded os configuration parse
        { Command := "exec", ExecCommand := .map [("name", .str "notepad")] } = none
    ∧ parseMessage (fun _ => { Command := "exec" }) os configuration parse msg = none
    ∧ parseMessage decodeMessage os configuration parse msg
        = parseDecoded os configuration parse (decodeMessage msg) := by
  have hv : ("exec" : String) ≠ "version" := by decide
  have key : ∀ iMsg : IncomingMessage, iMsg.Command = "exec" →
      (∀ s, iMsg.ExecCommand ≠ .str s) →
      parseDecoded os configuration parse iMsg = none := by
    intro iMsg hcmd hns
    unfold parseDecoded
    rw [hcmd, if_neg hv, if_pos rfl]
    exact execBranch_not_string os configuration parse iMsg hns
  refine ⟨key _ rfl ?_, key _ rfl ?_, key _ rfl ?_, key _ rfl ?_, key _ rfl ?_,
    key _ rfl ?_, rfl⟩ <;> intro s h <;> cases h

end SafeOpenWith
